import Mathlib

/-!
# The lexer of `golang/src/lexer/lexer.go`

A shallow embedding of the tokenization engine and the properties of it that
the design document states.

Conventions of the embedding.

* A Go `string` is the list of its characters (`List Char`), and offsets count
  characters; for the ASCII text the lexer is written for, a character is a
  byte and an index into the list is a byte offset.  (The regular expressions
  of the table consume whole characters, so on other valid UTF-8 text only the
  unit of the offsets differs.)
* `regexp.Regexp` values are syntax trees over the operators the table uses,
  run by a backtracking matcher with Go's leftmost-first preference (greedy
  repetition first, alternatives in order).
* The `patterns` field of the Go `Lexer` never changes after `CreateLexer`; it
  is the constant `patterns`, kept outside the state record because handlers
  take the lexer as an argument.
* `panic` is an explicit result; the `for` loop of `Tokenize` runs on fuel, and
  running out of fuel is a third, separate result.
-/

namespace Lexer

/-! ## Regular expressions -/

/-- Syntax trees of the regular expressions of the pattern table, after the
operators of Go's `regexp/syntax`: literal, character class, concatenation,
and the greedy `*`, `+`, `?`. -/
inductive Regex where
  | lit (s : List Char)
  | cls (p : Char → Bool)
  | cat (a b : Regex)
  | star (a : Regex)
  | plus (a : Regex)
  | quest (a : Regex)

/-- Greedy iteration: `f` lists the ways one more copy can match; every way to
match further copies is tried, most copies first, and zero further copies
last.  An iteration that consumes nothing is not repeated. -/
def starEnds (f : List Char → List (List Char)) : Nat → List Char → List (List Char)
  | 0, s => [s]
  | n + 1, s => ((f s).filter (fun t => t.length < s.length)).flatMap (starEnds f n) ++ [s]

/-- All the ways `re` matches a prefix of `s`, each given by the text left
after the match, in the order of preference of a leftmost-first matcher. -/
def Regex.ends : Regex → List Char → List (List Char)
  | .lit l, s => if l.isPrefixOf s then [s.drop l.length] else []
  | .cls p, s =>
    match s with
    | [] => []
    | c :: t => if p c then [t] else []
  | .cat a b, s => (a.ends s).flatMap (fun t => b.ends t)
  | .star a, s => starEnds (fun t => a.ends t) s.length s
  | .plus a, s => (a.ends s).flatMap (fun t => starEnds (fun u => a.ends u) t.length t)
  | .quest a, s => a.ends s ++ [s]

/-- The length of the preferred match of `re` at the very start of `s`. -/
def Regex.matchLen (re : Regex) (s : List Char) : Option Nat :=
  (re.ends s).head?.map (fun t => s.length - t.length)

/-- Leftmost search from offset `i` of the text whose remaining part is `s`. -/
def findFrom (re : Regex) : Nat → List Char → Option (Nat × Nat)
  | i, [] => (re.matchLen []).map (fun n => (i, i + n))
  | i, c :: t =>
    match re.matchLen (c :: t) with
    | some n => some (i, i + n)
    | none => findFrom re (i + 1) t

/-- Embeds `(*Regexp).FindStringIndex`: the start and end offsets of the
leftmost match of `re` in `s`, or `none` (Go's `nil`). -/
def FindStringIndex (re : Regex) (s : List Char) : Option (Nat × Nat) :=
  findFrom re 0 s

/-- Embeds `(*Regexp).FindString`: the text of the leftmost match of `re` in
`s`, or the empty string when there is none. -/
def FindString (re : Regex) (s : List Char) : List Char :=
  match FindStringIndex re s with
  | some loc => (s.take loc.2).drop loc.1
  | none => []

/-! ## Tokens -/

/-- Modelled from the spec: the declaration of `TokenKind` is not among the
sources.  The kinds named in `lexer.go` are constructors of their own; the
kinds of the reserved words ("one entry per reserved word") are `RESERVED n`. -/
inductive TokenKind where
  | EOF | NUMBER | STRING | IDENTIFIER
  | OPEN_BRACKET | CLOSE_BRACKET | OPEN_CURLY | CLOSE_CURLY | OPEN_PAREN | CLOSE_PAREN
  | EQUALS | NOT_EQUALS | ASSIGNMENT | NOT
  | LESS_EQUALS | LESS | GREATER_EQUALS | GREATER
  | OR | AND | DOT_DOT | DOT | SEMICOLON | COLON | QUESTION | COMMA
  | PLUS_PLUS | MINUS_MINUS | PLUS_EQUALS | MINUS_EQUALS
  | PLUS | DASH | SLASH | STAR | PERCENT
  | RESERVED (n : Nat)
  deriving DecidableEq, Repr

/-- Modelled from the spec: the declaration of `Token` is not among the
sources; a token is a kind and the matched text. -/
structure Token where
  kind : TokenKind
  value : List Char
  deriving DecidableEq, Repr

/-- Modelled from the spec: `NewToken` is not among the sources; it builds the
token of the given kind and value. -/
def NewToken (kind : TokenKind) (value : List Char) : Token :=
  { kind := kind, value := value }

end Lexer

/-! ## Scanner state -/

/-- The mutable fields of the Go `Lexer`. -/
structure Lexer where
  Tokens : List Lexer.Token
  source : List Char
  pos : Nat

namespace Lexer

def advanceN (lex : Lexer) (n : Nat) : Lexer :=
  { lex with pos := lex.pos + n }

def push (lex : Lexer) (token : Token) : Lexer :=
  { lex with Tokens := lex.Tokens ++ [token] }

def remainder (lex : Lexer) : List Char :=
  lex.source.drop lex.pos

def at_eof (lex : Lexer) : Bool :=
  decide (lex.pos ≥ lex.source.length)

/-! ## Handlers -/

/-- A handler either updates the lexer or stops the program with a run-time
error (indexing the `nil` result of a failed search). -/
abbrev regexHandler := Lexer → Regex → Except (List Char) Lexer

structure regexPattern where
  regex : Regex
  handler : regexHandler

def defaultHandler (kind : TokenKind) (value : List Char) : regexHandler :=
  fun lex _ => .ok ((lex.advanceN value.length).push (NewToken kind value))

def skipHandler : regexHandler := fun lex regex =>
  match FindStringIndex regex lex.remainder with
  | none => .error "runtime error: index out of range [1] with length 0".toList
  | some «match» => .ok (lex.advanceN «match».2)

def numberHandler : regexHandler := fun lex regex =>
  let «match» := FindString regex lex.remainder
  .ok ((lex.push (NewToken .NUMBER «match»)).advanceN «match».length)

def stringHandler : regexHandler := fun lex regex =>
  match FindStringIndex regex lex.remainder with
  | none => .error "runtime error: index out of range [0] with length 0".toList
  | some «match» =>
    let stringLiteral := (lex.remainder.take «match».2).drop «match».1
    .ok ((lex.push (NewToken .STRING stringLiteral)).advanceN stringLiteral.length)

/-- The handler of identifier-shaped text; `reservedWords` is the map from
spelling to kind, whose declaration is not among the sources. -/
def symbolHandler (reservedWords : List Char → Option TokenKind) : regexHandler :=
  fun lex regex =>
    let value := FindString regex lex.remainder
    let lex :=
      match reservedWords value with
      | some kind => lex.push (NewToken kind value)
      | none => lex.push (NewToken .IDENTIFIER value)
    .ok (lex.advanceN value.length)

/-! ## The pattern table -/

def inRange (lo hi c : Char) : Bool :=
  decide (lo.toNat ≤ c.toNat) && decide (c.toNat ≤ hi.toNat)

/-- The class `[a-zA-Z_]`. -/
def identStart (c : Char) : Bool :=
  inRange 'a' 'z' c || inRange 'A' 'Z' c || c == '_'

/-- The class `[a-zA-Z0-9_]`. -/
def identChar (c : Char) : Bool :=
  inRange 'a' 'z' c || inRange 'A' 'Z' c || inRange '0' '9' c || c == '_'

/-- The class `[0-9]`. -/
def digit (c : Char) : Bool :=
  inRange '0' '9' c

/-- The class `[^"]` (it contains the newline). -/
def notQuote (c : Char) : Bool :=
  c != '"'

/-- The class `.` (every character but the newline). -/
def anyNotNL (c : Char) : Bool :=
  c != '\n'

/-- The class `\s`, that is `[\t\n\f\r ]`. -/
def space (c : Char) : Bool :=
  c == '\t' || c == '\n' || c == '\x0c' || c == '\r' || c == ' '

/-- The table built by `CreateLexer`, in its order. -/
def patterns (reservedWords : List Char → Option TokenKind) : List regexPattern :=
  [ ⟨.cat (.cls identStart) (.star (.cls identChar)), symbolHandler reservedWords⟩,
    ⟨.cat (.plus (.cls digit)) (.quest (.cat (.lit ['.']) (.plus (.cls digit)))), numberHandler⟩,
    ⟨.cat (.lit ['"']) (.cat (.star (.cls notQuote)) (.lit ['"'])), stringHandler⟩,
    ⟨.cat (.lit ['/', '/']) (.star (.cls anyNotNL)), skipHandler⟩,
    ⟨.plus (.cls space), skipHandler⟩,
    ⟨.lit ['['], defaultHandler .OPEN_BRACKET ['[']⟩,
    ⟨.lit [']'], defaultHandler .CLOSE_BRACKET [']']⟩,
    ⟨.lit ['{'], defaultHandler .OPEN_CURLY ['{']⟩,
    ⟨.lit ['}'], defaultHandler .CLOSE_CURLY ['}']⟩,
    ⟨.lit ['('], defaultHandler .OPEN_PAREN ['(']⟩,
    ⟨.lit [')'], defaultHandler .CLOSE_PAREN [')']⟩,
    ⟨.lit ['=', '='], defaultHandler .EQUALS ['=', '=']⟩,
    ⟨.lit ['!', '='], defaultHandler .NOT_EQUALS ['!', '=']⟩,
    ⟨.lit ['='], defaultHandler .ASSIGNMENT ['=']⟩,
    ⟨.lit ['!'], defaultHandler .NOT ['!']⟩,
    ⟨.lit ['<', '='], defaultHandler .LESS_EQUALS ['<', '=']⟩,
    ⟨.lit ['<'], defaultHandler .LESS ['<']⟩,
    ⟨.lit ['>', '='], defaultHandler .GREATER_EQUALS ['>', '=']⟩,
    ⟨.lit ['>'], defaultHandler .GREATER ['>']⟩,
    ⟨.lit ['|', '|'], defaultHandler .OR ['|', '|']⟩,
    ⟨.lit ['&', '&'], defaultHandler .AND ['&', '&']⟩,
    ⟨.lit ['.', '.'], defaultHandler .DOT_DOT ['.', '.']⟩,
    ⟨.lit ['.'], defaultHandler .DOT ['.']⟩,
    ⟨.lit [';'], defaultHandler .SEMICOLON [';']⟩,
    ⟨.lit [':'], defaultHandler .COLON [':']⟩,
    ⟨.lit ['?'], defaultHandler .QUESTION ['?']⟩,
    ⟨.lit [','], defaultHandler .COMMA [',']⟩,
    ⟨.lit ['+', '+'], defaultHandler .PLUS_PLUS ['+', '+']⟩,
    ⟨.lit ['-', '-'], defaultHandler .MINUS_MINUS ['-', '-']⟩,
    ⟨.lit ['+', '='], defaultHandler .PLUS_EQUALS ['+', '=']⟩,
    ⟨.lit ['-', '='], defaultHandler .MINUS_EQUALS ['-', '=']⟩,
    ⟨.lit ['+'], defaultHandler .PLUS ['+']⟩,
    ⟨.lit ['-'], defaultHandler .DASH ['-']⟩,
    ⟨.lit ['/'], defaultHandler .SLASH ['/']⟩,
    ⟨.lit ['*'], defaultHandler .STAR ['*']⟩,
    ⟨.lit ['%'], defaultHandler .PERCENT ['%']⟩ ]

def CreateLexer (source : List Char) : Lexer :=
  { pos := 0, source := source, Tokens := [] }

/-! ## Tokenize -/

/-- The result of a run: the returned tokens, a panic with its message, or
fuel exhausted with the loop still running. -/
inductive Result where
  | returned (tokens : List Token)
  | panicked (msg : List Char)
  | outOfFuel
  deriving DecidableEq, Repr

/-- The inner `for ... range lex.patterns` loop: the handler of the first
pattern whose leftmost match starts at offset 0 of the remainder is run;
`none` is `matched == false`. -/
def dispatch (lex : Lexer) : List regexPattern → Option (Except (List Char) Lexer)
  | [] => none
  | pattern :: rest =>
    match FindStringIndex pattern.regex lex.remainder with
    | some (0, _) => some (pattern.handler lex pattern.regex)
    | _ => dispatch lex rest

/-- The message of the panic of `Tokenize`. -/
def unrecognized (remainder : List Char) : List Char :=
  "lexer::Error -> unrecognized token near ".toList ++ remainder ++ ['\n']

/-- The outer `for !lex.at_eof()` loop of `Tokenize` and what follows it. -/
def loop (reservedWords : List Char → Option TokenKind) : Nat → Lexer → Result
  | 0, lex =>
    if lex.at_eof then .returned (lex.push (NewToken .EOF "EOF".toList)).Tokens
    else .outOfFuel
  | fuel + 1, lex =>
    if lex.at_eof then .returned (lex.push (NewToken .EOF "EOF".toList)).Tokens
    else
      match dispatch lex (patterns reservedWords) with
      | none => .panicked (unrecognized lex.remainder)
      | some (.error msg) => .panicked msg
      | some (.ok lex') => loop reservedWords fuel lex'

/-- Embeds `Tokenize`; the fuel is the length of the source, which is always
enough, since every iteration moves the cursor forward (`loop_fuel`). -/
def Tokenize (reservedWords : List Char → Option TokenKind) (source : List Char) : Result :=
  loop reservedWords source.length (CreateLexer source)

/-- A sample table of reserved words, for concrete runs. -/
def sampleReserved (w : List Char) : Option TokenKind :=
  if w = "let".toList then some (.RESERVED 0)
  else if w = "const".toList then some (.RESERVED 1)
  else none

/-! ## Auxiliary definitions for the statements -/

/-- The end-of-input token. -/
def eofToken : Token := NewToken .EOF "EOF".toList

/-- The kind and the literal spelling of the fixed-symbol entries of the
pattern table (its brackets, operators and punctuation), in table order. -/
def fixedSymbols : List (TokenKind × List Char) :=
  [ (.OPEN_BRACKET, "[".toList), (.CLOSE_BRACKET, "]".toList),
    (.OPEN_CURLY, "\x7b".toList), (.CLOSE_CURLY, "\x7d".toList),
    (.OPEN_PAREN, "(".toList), (.CLOSE_PAREN, ")".toList),
    (.EQUALS, "==".toList), (.NOT_EQUALS, "!=".toList),
    (.ASSIGNMENT, "=".toList), (.NOT, "!".toList),
    (.LESS_EQUALS, "<=".toList), (.LESS, "<".toList),
    (.GREATER_EQUALS, ">=".toList), (.GREATER, ">".toList),
    (.OR, "||".toList), (.AND, "&&".toList),
    (.DOT_DOT, "..".toList), (.DOT, ".".toList),
    (.SEMICOLON, ";".toList), (.COLON, ":".toList),
    (.QUESTION, "?".toList), (.COMMA, ",".toList),
    (.PLUS_PLUS, "++".toList), (.MINUS_MINUS, "--".toList),
    (.PLUS_EQUALS, "+=".toList), (.MINUS_EQUALS, "-=".toList),
    (.PLUS, "+".toList), (.DASH, "-".toList),
    (.SLASH, "/".toList), (.STAR, "*".toList), (.PERCENT, "%".toList) ]

/-- An ASCII letter. -/
abbrev asciiLetter (c : Char) : Prop :=
  ('a'.toNat ≤ c.toNat ∧ c.toNat ≤ 'z'.toNat) ∨ ('A'.toNat ≤ c.toNat ∧ c.toNat ≤ 'Z'.toNat)

/-- An ASCII digit. -/
abbrev asciiDigit (c : Char) : Prop :=
  '0'.toNat ≤ c.toNat ∧ c.toNat ≤ '9'.toNat

/-- A syntactic test that a regular expression matches no empty text. -/
def Regex.consumes : Regex → Bool
  | .lit l => !l.isEmpty
  | .cls _ => true
  | .cat a b => a.consumes || b.consumes
  | .star _ => false
  | .plus a => a.consumes
  | .quest _ => false

/-- The pattern with its match length that the inner loop of `Tokenize`
selects on the text `s`: the first one of the table matching at offset 0. -/
def firstMatch (s : List Char) : List regexPattern → Option (regexPattern × Nat)
  | [] => none
  | p :: ps =>
    match p.regex.matchLen s with
    | some e => some (p, e)
    | none => firstMatch s ps

/-- What the handler of a pattern does when the pattern matches `e` characters
at the cursor: it moves the cursor by `e` and emits nothing or one token
holding the matched text. -/
def handlesMatch (p : regexPattern) : Prop :=
  ∀ (lex : Lexer) (e : Nat), p.regex.matchLen lex.remainder = some e →
    ∃ toks, p.handler lex p.regex
        = .ok { Tokens := lex.Tokens ++ toks, source := lex.source, pos := lex.pos + e } ∧
      (toks = [] ∨ ∃ k, toks = [NewToken k (lex.remainder.take e)])

/-- The lexer after `n` further iterations of the outer loop of `Tokenize`,
when the scan gets that far: `none` when it ends or panics earlier. -/
def scan (reservedWords : List Char → Option TokenKind) : Nat → Lexer → Option Lexer
  | 0, lex => some lex
  | n + 1, lex =>
    if lex.at_eof then none
    else
      match dispatch lex (patterns reservedWords) with
      | some (.ok lex') => scan reservedWords n lex'
      | _ => none

/-- The text consumed by each iteration of the outer loop of `Tokenize`, in
order: `source[pos_before:pos_after]` for each handler invocation. -/
def consumed (reservedWords : List Char → Option TokenKind) : Nat → Lexer → List (List Char)
  | 0, _ => []
  | fuel + 1, lex =>
    if lex.at_eof then []
    else
      match dispatch lex (patterns reservedWords) with
      | some (.ok lex') =>
        (lex.source.take lex'.pos).drop lex.pos :: consumed reservedWords fuel lex'
      | _ => []

/-- The text that the pattern selected by the inner loop matches at the
cursor: the match of the first pattern whose leftmost match starts at offset 0
of the remainder. -/
def firedText (lex : Lexer) : List regexPattern → Option (List Char)
  | [] => none
  | pattern :: rest =>
    match FindStringIndex pattern.regex lex.remainder with
    | some (0, _) => some (FindString pattern.regex lex.remainder)
    | _ => firedText lex rest

/-- The text matched at the cursor by the selected pattern, for each iteration
of the outer loop of `Tokenize`, in order. -/
def matchedTexts (reservedWords : List Char → Option TokenKind) :
    Nat → Lexer → List (Option (List Char))
  | 0, _ => []
  | fuel + 1, lex =>
    if lex.at_eof then []
    else
      match dispatch lex (patterns reservedWords) with
      | some (.ok lex') =>
        firedText lex (patterns reservedWords) :: matchedTexts reservedWords fuel lex'
      | _ => []

/-- The literal spelling of a regular expression that is a literal. -/
def Regex.literal? : Regex → Option (List Char)
  | .lit l => some l
  | _ => none

/-- The literal spellings of the table, entry by entry (`none` at the entries
that are no literals). -/
def spellings : List (Option (List Char)) :=
  [none, none, none, none, none,
   some "[".toList, some "]".toList, some "\x7b".toList, some "\x7d".toList,
   some "(".toList, some ")".toList, some "==".toList, some "!=".toList,
   some "=".toList, some "!".toList, some "<=".toList, some "<".toList,
   some ">=".toList, some ">".toList, some "||".toList, some "&&".toList,
   some "..".toList, some ".".toList, some ";".toList, some ":".toList,
   some "?".toList, some ",".toList, some "++".toList, some "--".toList,
   some "+=".toList, some "-=".toList, some "+".toList, some "-".toList,
   some "/".toList, some "*".toList, some "%".toList]

/-- No earlier spelling is a proper prefix of a later one. -/
abbrev prefixFree (x y : Option (List Char)) : Prop :=
  ∀ a ∈ x, ∀ b ∈ y, ¬ (a.isPrefixOf b = true ∧ a ≠ b)

/-- The tokens `ts` put in front of the tokens of a returned result. -/
def Result.prepend (ts : List Token) : Result → Result
  | .returned us => .returned (ts ++ us)
  | .panicked msg => .panicked msg
  | .outOfFuel => .outOfFuel

/-- The tokens the handler of `p` emits when `p` fires at the start of `s`. -/
def emitted (p : regexPattern) (s : List Char) : List Token :=
  match p.handler (CreateLexer s) p.regex with
  | .ok lex => lex.Tokens
  | .error _ => []

/-- The recognizer of identifiers and reserved words. -/
abbrev identRe : Regex := .cat (.cls identStart) (.star (.cls identChar))

/-- The recognizer of numeric literals. -/
abbrev numberRe : Regex :=
  .cat (.plus (.cls digit)) (.quest (.cat (.lit ['.']) (.plus (.cls digit))))

/-- The recognizer of string literals. -/
abbrev stringRe : Regex := .cat (.lit ['"']) (.cat (.star (.cls notQuote)) (.lit ['"']))

/-- The recognizer of line comments. -/
abbrev commentRe : Regex := .cat (.lit ['/', '/']) (.star (.cls anyNotNL))

/-- The recognizer of whitespace. -/
abbrev spaceRe : Regex := .plus (.cls space)

/-- The length of the numeric literal at the start of a text that starts with
a digit: the digits, and a dot with the digits after it when there is one. -/
def numberLen (s : List Char) : Nat :=
  match s.dropWhile digit with
  | '.' :: x :: y =>
    if digit x then (s.takeWhile digit).length + 2 + (y.takeWhile digit).length
    else (s.takeWhile digit).length
  | _ => (s.takeWhile digit).length

/-- A text the skip handler consumes in one step: a non-empty run of
whitespace, or a line comment ("//" and what follows on the line). -/
def skipText (x : List Char) : Prop :=
  (x ≠ [] ∧ ∀ c ∈ x, c = ' ' ∨ c = '\t' ∨ c = '\n' ∨ c = '\r' ∨ c = '\x0c') ∨
  (∃ c, x = "//".toList ++ c ∧ '\n' ∉ c)

/-- A gap between tokens: a sequence of texts the skip handler consumed. -/
def gapText (g : List Char) : Prop :=
  ∃ pieces : List (List Char), g = pieces.flatten ∧ ∀ x ∈ pieces, skipText x

/-- The text `g0 ++ v1 ++ g1 ++ ... ++ vn ++ gn` made of the gaps `g0..gn` and
the values `v1..vn` of the given tokens. -/
def weave : List (List Char) → List Token → List Char
  | g :: gs, t :: ts => g ++ t.value ++ weave gs ts
  | g :: _, [] => g
  | [], _ => []

/-- Longest-match dispatch, as a specification: of the patterns of the table
that match at the start of `s`, the one whose match is the longest (the
earlier one when two are equally long), with the length of its match. -/
def longestMatch (s : List Char) : List regexPattern → Option (regexPattern × Nat)
  | [] => none
  | p :: ps =>
    match p.regex.matchLen s, longestMatch s ps with
    | some e, some (q, e') => if e < e' then some (q, e') else some (p, e)
    | some e, none => some (p, e)
    | none, r => r

/-- An earlier pattern beats a later one: wherever both match, the earlier
one matches more text. -/
def beats (p q : regexPattern) : Prop :=
  ∀ (s : List Char) (e e' : Nat),
    p.regex.matchLen s = some e → q.regex.matchLen s = some e' → e' < e

/-- The first character of a fixed symbol starts no identifier, number, string
or whitespace, and a symbol that starts with a slash is the slash. -/
def symbolHead (v : List Char) : Bool :=
  match v with
  | a :: l => !identStart a && !digit a && a != '"' && !space a && (a != '/' || l.isEmpty)
  | [] => false

/-- The literal text with which every match of a regular expression begins,
when its syntax shows one: the spelling of a literal, and the leading literal
of a concatenation. -/
def Regex.leading? : Regex → Option (List Char)
  | .lit l => some l
  | .cat (.lit l) _ => some l
  | _ => none

/-- The leading literals of the table, entry by entry (`none` at the entries
that begin with no literal). -/
def leadings : List (Option (List Char)) :=
  [none, none, some "\"".toList, some "//".toList, none,
   some "[".toList, some "]".toList, some "\x7b".toList, some "\x7d".toList,
   some "(".toList, some ")".toList, some "==".toList, some "!=".toList,
   some "=".toList, some "!".toList, some "<=".toList, some "<".toList,
   some ">=".toList, some ">".toList, some "||".toList, some "&&".toList,
   some "..".toList, some ".".toList, some ";".toList, some ":".toList,
   some "?".toList, some ",".toList, some "++".toList, some "--".toList,
   some "+=".toList, some "-=".toList, some "+".toList, some "-".toList,
   some "/".toList, some "*".toList, some "%".toList]

/-! ## Facts about the matcher -/

theorem starEnds_suffix (f : List Char → List (List Char))
    (hf : ∀ s t, t ∈ f s → t <:+ s) :
    ∀ n s t, t ∈ starEnds f n s → t <:+ s := by
  intro n
  induction n with
  | zero =>
    intro s t h
    simp [starEnds] at h
    subst h
    exact List.suffix_refl _
  | succ n ih =>
    intro s t h
    simp only [starEnds, List.mem_append, List.mem_flatMap, List.mem_filter,
      List.mem_singleton] at h
    rcases h with ⟨u, ⟨hu, _⟩, ht⟩ | rfl
    · exact (ih u t ht).trans (hf s u hu)
    · exact List.suffix_refl _

theorem ends_suffix (re : Regex) : ∀ s t, t ∈ re.ends s → t <:+ s := by
  induction re with
  | lit l =>
    intro s t h
    simp only [Regex.ends] at h
    split at h
    · simp only [List.mem_singleton] at h
      subst h
      exact List.drop_suffix _ _
    · simp at h
  | cls p =>
    intro s t h
    cases s with
    | nil => simp [Regex.ends] at h
    | cons c r =>
      simp only [Regex.ends] at h
      split at h
      · simp only [List.mem_singleton] at h
        subst h
        exact List.suffix_cons _ _
      · simp at h
  | cat a b iha ihb =>
    intro s t h
    simp only [Regex.ends, List.mem_flatMap] at h
    obtain ⟨u, hu, ht⟩ := h
    exact (ihb u t ht).trans (iha s u hu)
  | star a iha =>
    intro s t h
    simp only [Regex.ends] at h
    exact starEnds_suffix _ iha _ s t h
  | plus a iha =>
    intro s t h
    simp only [Regex.ends, List.mem_flatMap] at h
    obtain ⟨u, hu, ht⟩ := h
    exact (starEnds_suffix _ iha _ u t ht).trans (iha s u hu)
  | quest a iha =>
    intro s t h
    simp only [Regex.ends, List.mem_append, List.mem_singleton] at h
    rcases h with h | rfl
    · exact iha s t h
    · exact List.suffix_refl _

theorem ends_consumes (re : Regex) (hc : re.consumes = true) :
    ∀ s t, t ∈ re.ends s → t.length < s.length := by
  induction re with
  | lit l =>
    intro s t h
    simp only [Regex.ends] at h
    split at h
    · rename_i hp
      simp only [List.mem_singleton] at h
      subst h
      have hle : l.length ≤ s.length := (List.isPrefixOf_iff_prefix.mp hp).length_le
      cases l with
      | nil => simp [Regex.consumes] at hc
      | cons x xs =>
        simp only [List.length_drop, List.length_cons] at *
        omega
    · simp at h
  | cls p =>
    intro s t h
    cases s with
    | nil => simp [Regex.ends] at h
    | cons c r =>
      simp only [Regex.ends] at h
      split at h
      · simp only [List.mem_singleton] at h
        subst h
        simp
      · simp at h
  | cat a b iha ihb =>
    intro s t h
    simp only [Regex.ends, List.mem_flatMap] at h
    obtain ⟨u, hu, ht⟩ := h
    simp only [Regex.consumes, Bool.or_eq_true] at hc
    have h1 := (ends_suffix a s u hu).length_le
    have h2 := (ends_suffix b u t ht).length_le
    rcases hc with hc | hc
    · have := iha hc s u hu
      omega
    · have := ihb hc u t ht
      omega
  | star a _ => simp [Regex.consumes] at hc
  | plus a iha =>
    intro s t h
    simp only [Regex.ends, List.mem_flatMap] at h
    obtain ⟨u, hu, ht⟩ := h
    simp only [Regex.consumes] at hc
    have h1 := iha hc s u hu
    have h2 := (starEnds_suffix _ (ends_suffix a) _ u t ht).length_le
    omega
  | quest a _ => simp [Regex.consumes] at hc

theorem matchLen_eq_some (re : Regex) (s : List Char) (e : Nat)
    (h : re.matchLen s = some e) :
    ∃ t, (re.ends s).head? = some t ∧ t <:+ s ∧ e + t.length = s.length ∧
      s.drop e = t := by
  unfold Regex.matchLen at h
  cases hh : (re.ends s).head? with
  | none => simp [hh] at h
  | some t =>
    simp only [hh, Option.map_some', Option.some.injEq] at h
    have hm : t ∈ re.ends s := List.mem_of_mem_head? hh
    have hs := ends_suffix re s t hm
    have hl := hs.length_le
    refine ⟨t, rfl, hs, by omega, ?_⟩
    obtain ⟨pre, hpre⟩ := hs
    have : pre.length = e := by
      have := congrArg List.length hpre
      simp at this
      omega
    rw [← hpre, ← this]
    simp

theorem findFrom_start_ge (re : Regex) :
    ∀ s i a b, findFrom re i s = some (a, b) → i ≤ a := by
  intro s
  induction s with
  | nil =>
    intro i a b h
    simp only [findFrom, Option.map_eq_some'] at h
    obtain ⟨n, _, hn⟩ := h
    simp only [Prod.mk.injEq] at hn
    omega
  | cons c t ih =>
    intro i a b h
    simp only [findFrom] at h
    split at h
    · simp only [Option.some.injEq, Prod.mk.injEq] at h
      omega
    · have := ih _ _ _ h
      omega

/-- The leftmost match starts at offset 0 exactly when the expression matches
at the very start of the text. -/
theorem FindStringIndex_zero (re : Regex) (s : List Char) (e : Nat) :
    FindStringIndex re s = some (0, e) ↔ re.matchLen s = some e := by
  unfold FindStringIndex
  cases s with
  | nil =>
    simp only [findFrom]
    cases hm : re.matchLen [] with
    | some n => simp
    | none => simp
  | cons c t =>
    simp only [findFrom]
    cases hm : re.matchLen (c :: t) with
    | some n => simp
    | none =>
      simp only
      constructor
      · intro h
        have := findFrom_start_ge re _ _ _ _ h
        omega
      · intro h
        simp at h

theorem FindString_of_matchLen (re : Regex) (s : List Char) (e : Nat)
    (h : re.matchLen s = some e) :
    FindString re s = s.take e ∧ (s.take e).length = e := by
  have hz := (FindStringIndex_zero re s e).mpr h
  obtain ⟨t, -, -, hl, -⟩ := matchLen_eq_some re s e h
  constructor
  · simp [FindString, hz]
  · simp only [List.length_take]
    omega

theorem matchLen_lit (v s : List Char) (e : Nat)
    (h : (Regex.lit v).matchLen s = some e) : e = v.length ∧ s.take e = v := by
  unfold Regex.matchLen at h
  simp only [Regex.ends] at h
  split at h
  · rename_i hp
    have hpre := List.isPrefixOf_iff_prefix.mp hp
    have hle := hpre.length_le
    simp only [List.head?_cons, Option.map_some', List.length_drop, Option.some.injEq] at h
    have he : e = v.length := by omega
    subst he
    exact ⟨rfl, List.prefix_iff_eq_take.mp hpre |>.symm⟩
  · simp at h

/-! ## Facts about the handlers and the table -/

theorem dispatch_eq_firstMatch (lex : Lexer) (ps : List regexPattern) :
    dispatch lex ps
      = (firstMatch lex.remainder ps).map (fun pe => pe.1.handler lex pe.1.regex) := by
  induction ps with
  | nil => rfl
  | cons p ps ih =>
    simp only [dispatch, firstMatch]
    cases hm : p.regex.matchLen lex.remainder with
    | some e =>
      have hz := (FindStringIndex_zero _ _ _).mpr hm
      simp [hz]
    | none =>
      have hne : ∀ e, FindStringIndex p.regex lex.remainder ≠ some (0, e) := by
        intro e he
        rw [FindStringIndex_zero] at he
        simp [hm] at he
      simp only
      exact ih

theorem firstMatch_mem (s : List Char) :
    ∀ ps p e, firstMatch s ps = some (p, e) → p ∈ ps ∧ p.regex.matchLen s = some e := by
  intro ps
  induction ps with
  | nil => intro p e h; simp [firstMatch] at h
  | cons q ps ih =>
    intro p e h
    simp only [firstMatch] at h
    cases hm : q.regex.matchLen s with
    | some n =>
      simp only [hm, Option.some.injEq, Prod.mk.injEq] at h
      obtain ⟨rfl, rfl⟩ := h
      exact ⟨List.mem_cons_self _ _, hm⟩
    | none =>
      simp only [hm] at h
      obtain ⟨h1, h2⟩ := ih p e h
      exact ⟨List.mem_cons_of_mem _ h1, h2⟩

theorem firstMatch_none (s : List Char) :
    ∀ ps, firstMatch s ps = none ↔ ∀ p ∈ ps, p.regex.matchLen s = none := by
  intro ps
  induction ps with
  | nil => simp [firstMatch]
  | cons q ps ih =>
    simp only [firstMatch, List.mem_cons, forall_eq_or_imp]
    cases hm : q.regex.matchLen s with
    | some n => simp
    | none => simpa using ih

theorem handles_symbol (rw : List Char → Option TokenKind) (re : Regex) :
    handlesMatch ⟨re, symbolHandler rw⟩ := by
  intro lex e h
  obtain ⟨hf, hl⟩ := FindString_of_matchLen re _ e h
  simp only [symbolHandler, hf, hl]
  cases rw (List.take e lex.remainder) with
  | none => exact ⟨_, rfl, Or.inr ⟨_, rfl⟩⟩
  | some k => exact ⟨_, rfl, Or.inr ⟨_, rfl⟩⟩

theorem handles_number (re : Regex) : handlesMatch ⟨re, numberHandler⟩ := by
  intro lex e h
  obtain ⟨hf, hl⟩ := FindString_of_matchLen re _ e h
  simp only [numberHandler, hf, hl]
  exact ⟨_, rfl, Or.inr ⟨_, rfl⟩⟩

theorem handles_string (re : Regex) : handlesMatch ⟨re, stringHandler⟩ := by
  intro lex e h
  obtain ⟨-, hl⟩ := FindString_of_matchLen re _ e h
  have hz := (FindStringIndex_zero re _ e).mpr h
  simp only [stringHandler, hz, List.drop_zero, hl]
  exact ⟨_, rfl, Or.inr ⟨_, rfl⟩⟩

theorem handles_skip (re : Regex) : handlesMatch ⟨re, skipHandler⟩ := by
  intro lex e h
  have hz := (FindStringIndex_zero re _ e).mpr h
  simp only [skipHandler, hz]
  exact ⟨[], by simp [advanceN], Or.inl rfl⟩

theorem handles_default (k : TokenKind) (v : List Char) :
    handlesMatch ⟨.lit v, defaultHandler k v⟩ := by
  intro lex e h
  obtain ⟨rfl, ht⟩ := matchLen_lit v _ e h
  simp only [defaultHandler, ht]
  exact ⟨_, rfl, Or.inr ⟨_, rfl⟩⟩

theorem patterns_handle (rw : List Char → Option TokenKind) :
    ∀ p ∈ patterns rw, handlesMatch p ∧ p.regex.consumes = true := by
  intro p hp
  simp only [patterns, List.mem_cons, List.mem_singleton, List.not_mem_nil, or_false] at hp
  rcases hp with h | h | h | h | h | h
  · subst h; exact ⟨handles_symbol _ _, rfl⟩
  · subst h; exact ⟨handles_number _, rfl⟩
  · subst h; exact ⟨handles_string _, rfl⟩
  · subst h; exact ⟨handles_skip _, rfl⟩
  · subst h; exact ⟨handles_skip _, rfl⟩
  · repeat (first | (rcases h with h | h; · subst h; exact ⟨handles_default _ _, rfl⟩)
                  | (subst h; exact ⟨handles_default _ _, rfl⟩))

theorem length_remainder (lex : Lexer) :
    lex.remainder.length = lex.source.length - lex.pos := by
  simp [remainder]

/-- One pass of the inner loop: either no pattern matches at the cursor and
`matched` stays false, or the first matching pattern's handler moves the cursor
by the length `e` of the match, which is positive and lies within the
remainder, and emits at most one token, holding the matched text. -/
theorem dispatch_spec (rw : List Char → Option TokenKind) (lex : Lexer) :
    (firstMatch lex.remainder (patterns rw) = none ∧ dispatch lex (patterns rw) = none) ∨
    ∃ p e toks, firstMatch lex.remainder (patterns rw) = some (p, e) ∧
      dispatch lex (patterns rw)
        = some (.ok { Tokens := lex.Tokens ++ toks, source := lex.source, pos := lex.pos + e }) ∧
      0 < e ∧ lex.pos + e ≤ lex.source.length ∧
      (toks = [] ∨ ∃ k, toks = [NewToken k (lex.remainder.take e)]) := by
  rw [dispatch_eq_firstMatch]
  cases hf : firstMatch lex.remainder (patterns rw) with
  | none => exact Or.inl ⟨rfl, rfl⟩
  | some pe =>
    obtain ⟨p, e⟩ := pe
    obtain ⟨hmem, hm⟩ := firstMatch_mem _ _ _ _ hf
    obtain ⟨hh, hc⟩ := patterns_handle rw p hmem
    obtain ⟨toks, hok, htoks⟩ := hh lex e hm
    obtain ⟨t, ht, -, hl, -⟩ := matchLen_eq_some _ _ _ hm
    have hlt := ends_consumes _ hc _ _ (List.mem_of_mem_head? ht)
    have hr := length_remainder lex
    refine Or.inr ⟨p, e, toks, rfl, ?_, by omega, by omega, htoks⟩
    simp [hok]

theorem loop_zero (rw : List Char → Option TokenKind) (lex : Lexer) :
    loop rw 0 lex
      = if lex.at_eof then .returned (lex.push eofToken).Tokens else .outOfFuel := rfl

theorem loop_succ (rw : List Char → Option TokenKind) (fuel : Nat) (lex : Lexer) :
    loop rw (fuel + 1) lex
      = if lex.at_eof then .returned (lex.push eofToken).Tokens
        else
          match dispatch lex (patterns rw) with
          | none => .panicked (unrecognized lex.remainder)
          | some (.error msg) => .panicked msg
          | some (.ok lex') => loop rw fuel lex' := rfl

theorem loop_at_eof (rw : List Char → Option TokenKind) (fuel : Nat) (lex : Lexer)
    (h : lex.at_eof = true) : loop rw fuel lex = .returned (lex.Tokens ++ [eofToken]) := by
  cases fuel with
  | zero => simp [loop_zero, h, push]
  | succ n => simp [loop_succ, h, push]

/-- With the cursor before the end and no pattern matching there, the run
panics with the remainder in its message. -/
theorem loop_stuck (rw : List Char → Option TokenKind) (fuel : Nat) (lex : Lexer)
    (h : lex.at_eof = false) (hf : firstMatch lex.remainder (patterns rw) = none) :
    loop rw (fuel + 1) lex = .panicked (unrecognized lex.remainder) := by
  rcases dispatch_spec rw lex with ⟨-, hd⟩ | ⟨p, e, toks, hf', -⟩
  · simp [loop_succ, h, hd]
  · simp [hf] at hf'

/-- With the cursor before the end and a pattern matching there, the run goes
on from the lexer the handler leaves. -/
theorem loop_step (rw : List Char → Option TokenKind) (fuel : Nat) (lex lex' : Lexer)
    (h : lex.at_eof = false) (hd : dispatch lex (patterns rw) = some (.ok lex')) :
    loop rw (fuel + 1) lex = loop rw fuel lex' := by
  simp [loop_succ, h, hd]

theorem loop_returned_last (rw : List Char → Option TokenKind) :
    ∀ fuel lex ts, loop rw fuel lex = .returned ts → ∃ init, ts = init ++ [eofToken] := by
  intro fuel
  induction fuel with
  | zero =>
    intro lex ts h
    rw [loop_zero] at h
    split at h
    · simp only [Result.returned.injEq, push] at h
      exact ⟨_, h.symm⟩
    · simp at h
  | succ n ih =>
    intro lex ts h
    cases he : lex.at_eof with
    | true =>
      rw [loop_at_eof rw _ lex he] at h
      simp only [Result.returned.injEq] at h
      exact ⟨_, h.symm⟩
    | false =>
      rcases dispatch_spec rw lex with ⟨hf, -⟩ | ⟨p, e, toks, -, hd, -⟩
      · rw [loop_stuck rw n lex he hf] at h
        simp at h
      · rw [loop_step rw n lex _ he hd] at h
        exact ih _ ts h

/-- Enough fuel: the loop never ends for lack of it, and more fuel changes
nothing. -/
theorem loop_fuel (rw : List Char → Option TokenKind) :
    ∀ fuel lex, lex.source.length - lex.pos ≤ fuel →
      loop rw fuel lex ≠ .outOfFuel ∧
      ∀ more, loop rw (fuel + more) lex = loop rw fuel lex := by
  intro fuel
  induction fuel with
  | zero =>
    intro lex hle
    have he : lex.at_eof = true := by
      simp only [at_eof, decide_eq_true_eq]
      omega
    refine ⟨by simp [loop_at_eof rw _ lex he], fun more => ?_⟩
    rw [loop_at_eof rw _ lex he, loop_at_eof rw _ lex he]
  | succ n ih =>
    intro lex hle
    cases he : lex.at_eof with
    | true =>
      refine ⟨by simp [loop_at_eof rw _ lex he], fun more => ?_⟩
      rw [loop_at_eof rw _ lex he, loop_at_eof rw _ lex he]
    | false =>
      rcases dispatch_spec rw lex with ⟨hf, -⟩ | ⟨p, e, toks, -, hd, hpos, hin, -⟩
      · refine ⟨by simp [loop_stuck rw n lex he hf], fun more => ?_⟩
        rw [show n + 1 + more = (n + more) + 1 by omega, loop_stuck rw _ lex he hf,
          loop_stuck rw _ lex he hf]
      · have hle' : lex.source.length - (lex.pos + e) ≤ n := by omega
        obtain ⟨h1, h2⟩ := ih ⟨lex.Tokens ++ toks, lex.source, lex.pos + e⟩ hle'
        refine ⟨by rw [loop_step rw n lex _ he hd]; exact h1, fun more => ?_⟩
        rw [show n + 1 + more = (n + more) + 1 by omega, loop_step rw _ lex _ he hd,
          loop_step rw _ lex _ he hd]
        exact h2 more

theorem firedText_eq_firstMatch (lex : Lexer) (ps : List regexPattern) :
    firedText lex ps = (firstMatch lex.remainder ps).map (fun pe => lex.remainder.take pe.2) := by
  induction ps with
  | nil => rfl
  | cons p ps ih =>
    simp only [firedText, firstMatch]
    cases hm : p.regex.matchLen lex.remainder with
    | some e =>
      have hz := (FindStringIndex_zero _ _ _).mpr hm
      simp [hz, (FindString_of_matchLen _ _ _ hm).1]
    | none =>
      have hne : ∀ e, FindStringIndex p.regex lex.remainder ≠ some (0, e) := by
        intro e he
        rw [FindStringIndex_zero] at he
        simp [hm] at he
      simp only
      exact ih

theorem scan_loop (rw : List Char → Option TokenKind) :
    ∀ n lex0 lex, scan rw n lex0 = some lex →
      ∀ fuel, loop rw (n + fuel) lex0 = loop rw fuel lex := by
  intro n
  induction n with
  | zero =>
    intro lex0 lex h fuel
    simp only [scan, Option.some.injEq] at h
    subst h
    simp
  | succ n ih =>
    intro lex0 lex h fuel
    simp only [scan] at h
    cases he : lex0.at_eof with
    | true => simp [he] at h
    | false =>
      simp only [he, Bool.false_eq_true, if_false] at h
      rcases dispatch_spec rw lex0 with ⟨-, hd⟩ | ⟨p, e, toks, -, hd, -⟩
      · simp [hd] at h
      · simp only [hd] at h
        rw [show n + 1 + fuel = (n + fuel) + 1 by omega, loop_step rw _ lex0 _ he hd]
        exact ih _ _ h fuel

theorem loop_panicked (rw : List Char → Option TokenKind) :
    ∀ fuel lex msg, loop rw fuel lex = .panicked msg →
      ∃ n lex', scan rw n lex = some lex' ∧ lex'.source = lex.source ∧
        lex'.pos < lex'.source.length ∧ msg = unrecognized lex'.remainder ∧
        firstMatch lex'.remainder (patterns rw) = none := by
  intro fuel
  induction fuel with
  | zero =>
    intro lex msg h
    rw [loop_zero] at h
    split at h <;> simp at h
  | succ n ih =>
    intro lex msg h
    cases he : lex.at_eof with
    | true =>
      rw [loop_at_eof rw _ lex he] at h
      simp at h
    | false =>
      rcases dispatch_spec rw lex with ⟨hf, -⟩ | ⟨p, e, toks, -, hd, -⟩
      · rw [loop_stuck rw n lex he hf] at h
        simp only [Result.panicked.injEq] at h
        refine ⟨0, lex, rfl, rfl, ?_, h.symm, hf⟩
        simp only [at_eof, decide_eq_false_iff_not] at he
        omega
      · rw [loop_step rw n lex _ he hd] at h
        obtain ⟨m, lex', hs, hsrc, hpos, hmsg, hf⟩ := ih _ msg h
        refine ⟨m + 1, lex', ?_, hsrc, hpos, hmsg, hf⟩
        simp [scan, he, hd, hs]

theorem consumed_eq (rw : List Char → Option TokenKind) :
    ∀ fuel lex,
      consumed rw fuel lex = (matchedTexts rw fuel lex).filterMap id ∧
      (matchedTexts rw fuel lex).all Option.isSome = true ∧
      (lex.pos ≤ lex.source.length → ∀ ts, loop rw fuel lex = .returned ts →
        (consumed rw fuel lex).flatten = lex.remainder) := by
  intro fuel
  induction fuel with
  | zero =>
    intro lex
    refine ⟨rfl, rfl, fun _ ts h => ?_⟩
    rw [loop_zero] at h
    split at h
    · rename_i he
      simp only [at_eof, decide_eq_true_eq] at he
      simp [consumed, remainder, he]
    · simp at h
  | succ n ih =>
    intro lex
    cases he : lex.at_eof with
    | true =>
      refine ⟨by simp [consumed, matchedTexts, he], by simp [matchedTexts, he],
        fun _ ts _ => ?_⟩
      have he' := he
      simp only [at_eof, decide_eq_true_eq] at he'
      simp [consumed, remainder, he, he']
    | false =>
      rcases dispatch_spec rw lex with ⟨hf, hd⟩ | ⟨p, e, toks, hf, hd, hpos, hin, -⟩
      · refine ⟨by simp [consumed, matchedTexts, he, hd], by simp [matchedTexts, he, hd],
          fun _ ts h => ?_⟩
        rw [loop_stuck rw n lex he hf] at h
        simp at h
      · obtain ⟨h1, h2, h3⟩ := ih ⟨lex.Tokens ++ toks, lex.source, lex.pos + e⟩
        have hft : firedText lex (patterns rw) = some (lex.remainder.take e) := by
          rw [firedText_eq_firstMatch, hf]
          rfl
        have hpiece : (lex.source.take (lex.pos + e)).drop lex.pos = lex.remainder.take e := by
          simp [remainder, List.drop_take]
        refine ⟨?_, ?_, fun hle ts h => ?_⟩
        · simp [consumed, matchedTexts, he, hd, hft, h1, hpiece]
        · simp [matchedTexts, he, hd, hft, h2]
        · rw [loop_step rw n lex _ he hd] at h
          have h4 := h3 hin ts h
          simp only [consumed, he, hd, Bool.false_eq_true, if_false, List.flatten_cons, h4, hpiece]
          simp [remainder, List.take_append_drop]

/-! ## Facts about the recognizers of the table -/

theorem starEnds_cls (p : Char → Bool) :
    ∀ n s, s.length ≤ n →
      ∃ tl, starEnds (fun t => (Regex.cls p).ends t) n s = s.dropWhile p :: tl := by
  intro n
  induction n with
  | zero =>
    intro s h
    have : s = [] := List.length_eq_zero.mp (by omega)
    subst this
    exact ⟨[], rfl⟩
  | succ n ih =>
    intro s h
    cases s with
    | nil => exact ⟨[], by simp [starEnds, Regex.ends]⟩
    | cons c t =>
      simp only [List.length_cons] at h
      cases hp : p c with
      | false => exact ⟨[], by simp [starEnds, Regex.ends, hp, List.dropWhile]⟩
      | true =>
        obtain ⟨tl, htl⟩ := ih t (by omega)
        refine ⟨tl ++ [c :: t], ?_⟩
        rw [starEnds]
        have : (Regex.cls p).ends (c :: t) = [t] := by simp [Regex.ends, hp]
        simp only [this]
        simp [htl, List.dropWhile, hp]

theorem dropWhile_run (p : Char → Bool) (s r : List Char) (h : ∀ c ∈ s, p c = true)
    (hr : ∀ c, r.head? = some c → p c = false) : (s ++ r).dropWhile p = r := by
  induction s with
  | nil =>
    cases r with
    | nil => rfl
    | cons x xs => simp [List.dropWhile, hr x rfl]
  | cons x xs ih =>
    simp only [List.cons_append, List.dropWhile, h x (List.mem_cons_self _ _)]
    exact ih (fun c hc => h c (List.mem_cons_of_mem _ hc))

/-- The star of a class, at a run of the class followed by text that does not
go on with the class, prefers to stop after the run. -/
theorem star_cls_ends (p : Char → Bool) (s r : List Char) (h : ∀ c ∈ s, p c = true)
    (hr : ∀ c, r.head? = some c → p c = false) :
    ∃ tl, (Regex.star (.cls p)).ends (s ++ r) = r :: tl := by
  obtain ⟨tl, htl⟩ := starEnds_cls p (s ++ r).length (s ++ r) (le_refl _)
  rw [dropWhile_run p s r h hr] at htl
  exact ⟨tl, htl⟩

theorem plus_cls_ends (p : Char → Bool) (s r : List Char) (hs : s ≠ [])
    (h : ∀ c ∈ s, p c = true) (hr : ∀ c, r.head? = some c → p c = false) :
    ∃ tl, (Regex.plus (.cls p)).ends (s ++ r) = r :: tl := by
  cases s with
  | nil => exact absurd rfl hs
  | cons c t =>
    obtain ⟨tl, htl⟩ := starEnds_cls p (t ++ r).length (t ++ r) (le_refl _)
    rw [dropWhile_run p t r (fun x hx => h x (List.mem_cons_of_mem _ hx)) hr] at htl
    refine ⟨tl, ?_⟩
    have h1 : (Regex.cls p).ends (c :: (t ++ r)) = [t ++ r] := by
      simp [Regex.ends, h c (List.mem_cons_self _ _)]
    simp only [Regex.ends, List.cons_append] at h1 ⊢
    rw [h1]
    simpa using htl

theorem plus_cls_ends_nil (p : Char → Bool) (r : List Char)
    (hr : ∀ c, r.head? = some c → p c = false) :
    (Regex.plus (.cls p)).ends r = [] := by
  cases r with
  | nil => simp [Regex.ends]
  | cons x xs => simp [Regex.ends, hr x rfl]

theorem matchLen_of_ends (re : Regex) (s pre r : List Char) (tl : List (List Char))
    (hs : s = pre ++ r) (h : re.ends s = r :: tl) : re.matchLen s = some pre.length := by
  subst hs
  simp [Regex.matchLen, h]

/-! ### The recognizers of the table -/

theorem ident_matchLen (c : Char) (w r : List Char) (hc : identStart c = true)
    (hw : ∀ x ∈ w, identChar x = true) (hr : ∀ x, r.head? = some x → identChar x = false) :
    (Regex.cat (.cls identStart) (.star (.cls identChar))).matchLen (c :: (w ++ r))
      = some (w.length + 1) := by
  obtain ⟨tl, htl⟩ := star_cls_ends identChar w r hw hr
  have h1 : (Regex.cls identStart).ends (c :: (w ++ r)) = [w ++ r] := by simp [Regex.ends, hc]
  have : (Regex.cat (.cls identStart) (.star (.cls identChar))).ends (c :: (w ++ r))
      = r :: tl := by
    rw [Regex.ends, h1]
    simpa using htl
  have := matchLen_of_ends _ (c :: (w ++ r)) (c :: w) r tl rfl this
  simpa using this

theorem ident_matchLen_none (c : Char) (t : List Char) (hc : identStart c = false) :
    (Regex.cat (.cls identStart) (.star (.cls identChar))).matchLen (c :: t) = none := by
  simp [Regex.matchLen, Regex.ends, hc]

theorem number_matchLen_int (d r : List Char) (hd : d ≠ []) (hdd : ∀ c ∈ d, digit c = true)
    (hr : ∀ x, r.head? = some x → digit x = false)
    (hdot : ∀ r', r = '.' :: r' → ∀ x, r'.head? = some x → digit x = false) :
    (Regex.cat (.plus (.cls digit))
        (.quest (.cat (.lit ['.']) (.plus (.cls digit))))).matchLen (d ++ r)
      = some d.length := by
  obtain ⟨tl, htl⟩ := plus_cls_ends digit d r hd hdd hr
  have hq : (Regex.cat (.lit ['.']) (.plus (.cls digit))).ends r = [] := by
    cases r with
    | nil => simp [Regex.ends, List.isPrefixOf]
    | cons x xs =>
      by_cases hx : x = '.'
      · subst hx
        have := plus_cls_ends_nil digit xs (hdot xs rfl)
        rw [Regex.ends]
        simp [Regex.ends, List.isPrefixOf] at this ⊢
        exact this
      · have hx' : ('.' == x) = false := by
          simp only [beq_eq_false_iff_ne, ne_eq]
          exact fun h => hx h.symm
        simp [Regex.ends, List.isPrefixOf, hx']
  have : (Regex.cat (.plus (.cls digit))
      (.quest (.cat (.lit ['.']) (.plus (.cls digit))))).ends (d ++ r)
      = r :: tl.flatMap (fun t => (Regex.quest (.cat (.lit ['.']) (.plus (.cls digit)))).ends t) := by
    rw [Regex.ends, htl, List.flatMap_cons]
    rw [Regex.ends, hq]
    rfl
  exact matchLen_of_ends _ (d ++ r) d r _ rfl this

theorem number_matchLen_frac (d f r : List Char) (hd : d ≠ []) (hdd : ∀ c ∈ d, digit c = true)
    (hf : f ≠ []) (hff : ∀ c ∈ f, digit c = true)
    (hr : ∀ x, r.head? = some x → digit x = false) :
    (Regex.cat (.plus (.cls digit))
        (.quest (.cat (.lit ['.']) (.plus (.cls digit))))).matchLen (d ++ '.' :: (f ++ r))
      = some (d.length + 1 + f.length) := by
  obtain ⟨tl, htl⟩ := plus_cls_ends digit d ('.' :: (f ++ r)) hd hdd
    (by intro x hx; simp only [List.head?_cons, Option.some.injEq] at hx; subst hx; decide)
  obtain ⟨tl2, htl2⟩ := plus_cls_ends digit f r hf hff hr
  have hq : (Regex.cat (.lit ['.']) (.plus (.cls digit))).ends ('.' :: (f ++ r)) = r :: tl2 := by
    rw [Regex.ends]
    have : (Regex.lit ['.']).ends ('.' :: (f ++ r)) = [f ++ r] := by
      simp [Regex.ends, List.isPrefixOf]
    rw [this]
    simpa using htl2
  have : (Regex.cat (.plus (.cls digit))
      (.quest (.cat (.lit ['.']) (.plus (.cls digit))))).ends (d ++ '.' :: (f ++ r))
      = r :: (tl2 ++ ['.' :: (f ++ r)] ++
          tl.flatMap (fun t => (Regex.quest (.cat (.lit ['.']) (.plus (.cls digit)))).ends t)) := by
    rw [Regex.ends, htl, List.flatMap_cons]
    rw [Regex.ends, hq]
    simp
  have := matchLen_of_ends _ (d ++ '.' :: (f ++ r)) (d ++ '.' :: f) r _ (by simp) this
  rw [this]
  simp only [List.length_append, List.length_cons]
  congr 1
  omega

theorem string_matchLen (t r : List Char) (ht : ∀ c ∈ t, notQuote c = true) :
    (Regex.cat (.lit ['"']) (.cat (.star (.cls notQuote)) (.lit ['"']))).matchLen
        ('"' :: (t ++ '"' :: r))
      = some (t.length + 2) := by
  obtain ⟨tl, htl⟩ := star_cls_ends notQuote t ('"' :: r) ht
    (by intro x hx; simp only [List.head?_cons, Option.some.injEq] at hx; subst hx; decide)
  have h1 : (Regex.lit ['"']).ends ('"' :: (t ++ '"' :: r)) = [t ++ '"' :: r] := by
    simp [Regex.ends, List.isPrefixOf]
  have h2 : (Regex.lit ['"']).ends ('"' :: r) = [r] := by
    simp [Regex.ends, List.isPrefixOf]
  have : (Regex.cat (.lit ['"']) (.cat (.star (.cls notQuote)) (.lit ['"']))).ends
      ('"' :: (t ++ '"' :: r))
      = r :: tl.flatMap (fun u => (Regex.lit ['"']).ends u) := by
    rw [Regex.ends, h1, List.flatMap_singleton, Regex.ends, htl, List.flatMap_cons, h2]
    rfl
  have := matchLen_of_ends _ ('"' :: (t ++ '"' :: r)) ('"' :: (t ++ ['"'])) r _ (by simp) this
  simpa using this

theorem string_matchLen_none (t : List Char) (ht : '"' ∉ t) :
    (Regex.cat (.lit ['"']) (.cat (.star (.cls notQuote)) (.lit ['"']))).matchLen ('"' :: t)
      = none := by
  have h1 : (Regex.lit ['"']).ends ('"' :: t) = [t] := by
    simp [Regex.ends, List.isPrefixOf]
  have h2 : ∀ u ∈ (Regex.star (.cls notQuote)).ends t, (Regex.lit ['"']).ends u = [] := by
    intro u hu
    have hsuf := ends_suffix _ _ _ hu
    cases u with
    | nil => simp [Regex.ends, List.isPrefixOf]
    | cons x xs =>
      have hx : x ∈ t := hsuf.subset (List.mem_cons_self _ _)
      have hne : ('"' == x) = false := by
        simp only [beq_eq_false_iff_ne, ne_eq]
        rintro rfl
        exact ht hx
      simp [Regex.ends, List.isPrefixOf, hne]
  have : (Regex.cat (.lit ['"']) (.cat (.star (.cls notQuote)) (.lit ['"']))).ends ('"' :: t)
      = [] := by
    rw [Regex.ends, h1, List.flatMap_singleton, Regex.ends]
    rw [List.flatMap_eq_nil_iff]
    exact h2
  simp [Regex.matchLen, this]

/-! ### Character classes -/

theorem identStart_of_ascii (c : Char) (h : asciiLetter c ∨ c = '_') : identStart c = true := by
  simp only [identStart, inRange, Bool.or_eq_true, Bool.and_eq_true, decide_eq_true_eq,
    beq_iff_eq]
  rcases h with (h | h) | h
  · exact Or.inl (Or.inl h)
  · exact Or.inl (Or.inr h)
  · exact Or.inr h

theorem identChar_of_ascii (c : Char) (h : asciiLetter c ∨ asciiDigit c ∨ c = '_') :
    identChar c = true := by
  simp only [identChar, inRange, Bool.or_eq_true, Bool.and_eq_true, decide_eq_true_eq,
    beq_iff_eq]
  rcases h with (h | h) | h | h
  · exact Or.inl (Or.inl (Or.inl h))
  · exact Or.inl (Or.inl (Or.inr h))
  · exact Or.inl (Or.inr h)
  · exact Or.inr h

theorem digit_of_ascii (c : Char) (h : asciiDigit c) : digit c = true := by
  simp only [digit, inRange, Bool.and_eq_true, decide_eq_true_eq]
  exact h

theorem identStart_of_digit (c : Char) (h : digit c = true) : identStart c = false := by
  have h95 : c = '_' → c.toNat = 95 := by rintro rfl; rfl
  simp only [digit, identStart, inRange, Bool.and_eq_true, decide_eq_true_eq,
    Bool.or_eq_false_iff, Bool.and_eq_false_iff, decide_eq_false_iff_not, beq_eq_false_iff_ne,
    Char.reduceToNat] at *
  refine ⟨⟨?_, ?_⟩, ?_⟩
  · omega
  · omega
  · intro hc
    have := h95 hc
    omega

theorem head?_nil_imp (p : Char → Bool) : ∀ x, ([] : List Char).head? = some x → p x = false := by
  intro x hx
  simp at hx

/-! ### Single steps of the loop -/

theorem loop_fire (rw : List Char → Option TokenKind) (fuel : Nat) (lex lex' : Lexer)
    (p : regexPattern) (e : Nat) (he : lex.at_eof = false)
    (hf : firstMatch lex.remainder (patterns rw) = some (p, e))
    (hh : p.handler lex p.regex = .ok lex') :
    loop rw (fuel + 1) lex = loop rw fuel lex' := by
  apply loop_step rw fuel lex lex' he
  rw [dispatch_eq_firstMatch, hf]
  simp [hh]

theorem remainder_CreateLexer (source : List Char) : (CreateLexer source).remainder = source := by
  simp [remainder, CreateLexer]

theorem Tokenize_eq_loop (rw : List Char → Option TokenKind) (source : List Char)
    (fuel : Nat) (h : source.length ≤ fuel) :
    Tokenize rw source = loop rw fuel (CreateLexer source) := by
  obtain ⟨more, rfl⟩ := Nat.exists_eq_add_of_le h
  exact ((loop_fuel rw source.length (CreateLexer source) (by simp [CreateLexer])).2 more).symm

theorem numberHandler_ok (lex : Lexer) (re : Regex) (e : Nat)
    (h : re.matchLen lex.remainder = some e) :
    numberHandler lex re
      = .ok ⟨lex.Tokens ++ [NewToken .NUMBER (lex.remainder.take e)], lex.source, lex.pos + e⟩ := by
  obtain ⟨hf, hl⟩ := FindString_of_matchLen re _ e h
  simp only [numberHandler, hf, hl]
  rfl

theorem stringHandler_ok (lex : Lexer) (re : Regex) (e : Nat)
    (h : re.matchLen lex.remainder = some e) :
    stringHandler lex re
      = .ok ⟨lex.Tokens ++ [NewToken .STRING (lex.remainder.take e)], lex.source, lex.pos + e⟩ := by
  obtain ⟨-, hl⟩ := FindString_of_matchLen re _ e h
  have hz := (FindStringIndex_zero re _ e).mpr h
  simp only [stringHandler, hz, List.drop_zero, hl]
  rfl

theorem number_matchLen_none (c : Char) (t : List Char) (hc : digit c = false) :
    (Regex.cat (.plus (.cls digit))
        (.quest (.cat (.lit ['.']) (.plus (.cls digit))))).matchLen (c :: t) = none := by
  simp [Regex.matchLen, Regex.ends, hc]

theorem lit_matchLen_none (a c : Char) (l t : List Char) (h : (a == c) = false) :
    (Regex.lit (a :: l)).matchLen (c :: t) = none := by
  simp [Regex.matchLen, Regex.ends, List.isPrefixOf, h]

theorem firstMatch_quote_none (reservedWords : List Char → Option TokenKind)
    (t : List Char) (ht : '"' ∉ t) :
    firstMatch ('"' :: t) (patterns reservedWords) = none := by
  rw [firstMatch_none]
  intro p hp
  simp only [patterns, List.mem_cons, List.mem_singleton, List.not_mem_nil, or_false] at hp
  rcases hp with h | h | h | h | h | h
  · subst h; exact ident_matchLen_none _ _ (by decide)
  · subst h; exact number_matchLen_none _ _ (by decide)
  · subst h; exact string_matchLen_none t ht
  · subst h; simp [Regex.matchLen, Regex.ends, List.isPrefixOf]
  · subst h; simp [Regex.matchLen, Regex.ends, space]
  · repeat (first | (rcases h with h | h; · subst h; exact lit_matchLen_none _ _ _ _ (by decide))
                  | (subst h; exact lit_matchLen_none _ _ _ _ (by decide)))

theorem patterns_spellings (rw : List Char → Option TokenKind) :
    (patterns rw).map (fun p => p.regex.literal?) = spellings := rfl

theorem spellings_pairwise : spellings.Pairwise prefixFree := by decide

theorem spelling_of_entry (rw : List Char → Option TokenKind) (i : Nat) (p : regexPattern)
    (A : List Char) (hp : (patterns rw)[i]? = some p) (hA : p.regex = .lit A) :
    spellings[i]? = some (some A) := by
  rw [← patterns_spellings rw, List.getElem?_map, hp]
  simp [hA, Regex.literal?]

theorem firstMatch_atSign_none (rw : List Char → Option TokenKind) (s : List Char) :
    firstMatch ('@' :: s) (patterns rw) = none := by
  rw [firstMatch_none]
  intro p hp
  simp only [patterns, List.mem_cons, List.mem_singleton, List.not_mem_nil, or_false] at hp
  rcases hp with h | h | h | h | h | h
  · subst h; exact ident_matchLen_none _ _ (by decide)
  · subst h; exact number_matchLen_none _ _ (by decide)
  · subst h; simp [Regex.matchLen, Regex.ends, List.isPrefixOf]
  · subst h; simp [Regex.matchLen, Regex.ends, List.isPrefixOf]
  · subst h; simp [Regex.matchLen, Regex.ends, space]
  · repeat (first | (rcases h with h | h; · subst h; exact lit_matchLen_none _ _ _ _ (by decide))
                  | (subst h; exact lit_matchLen_none _ _ _ _ (by decide)))

theorem scan_invariant (rw : List Char → Option TokenKind) :
    ∀ n lex0 lex, scan rw n lex0 = some lex →
      lex.source = lex0.source ∧ lex0.pos ≤ lex.pos ∧
      (lex0.pos ≤ lex0.source.length → lex.pos ≤ lex.source.length) := by
  intro n
  induction n with
  | zero =>
    intro lex0 lex h
    simp only [scan, Option.some.injEq] at h
    subst h
    exact ⟨rfl, le_refl _, id⟩
  | succ n ih =>
    intro lex0 lex h
    simp only [scan] at h
    cases he : lex0.at_eof with
    | true => simp [he] at h
    | false =>
      simp only [he, Bool.false_eq_true, if_false] at h
      rcases dispatch_spec rw lex0 with ⟨-, hd⟩ | ⟨p, e, toks, -, hd, hpos, hin, -⟩
      · simp [hd] at h
      · simp only [hd] at h
        obtain ⟨h1, h2, h3⟩ := ih _ _ h
        simp only at h1 h2 h3
        exact ⟨h1, by omega, fun _ => h3 hin⟩

/-! ## The run as a function of the remainder -/

theorem symbolHandler_ok (rw : List Char → Option TokenKind) (lex : Lexer) (re : Regex)
    (e : Nat) (h : re.matchLen lex.remainder = some e) :
    symbolHandler rw lex re
      = .ok ⟨lex.Tokens ++ [NewToken ((rw (lex.remainder.take e)).getD .IDENTIFIER)
          (lex.remainder.take e)], lex.source, lex.pos + e⟩ := by
  obtain ⟨hf, hl⟩ := FindString_of_matchLen re _ e h
  simp only [symbolHandler, hf, hl]
  cases rw (List.take e lex.remainder) <;> rfl

theorem skipHandler_ok (lex : Lexer) (re : Regex) (e : Nat)
    (h : re.matchLen lex.remainder = some e) :
    skipHandler lex re = .ok ⟨lex.Tokens ++ [], lex.source, lex.pos + e⟩ := by
  have hz := (FindStringIndex_zero re _ e).mpr h
  simp [skipHandler, hz, advanceN]

theorem defaultHandler_ok (k : TokenKind) (v : List Char) (lex : Lexer) (re : Regex) :
    defaultHandler k v lex re
      = .ok ⟨lex.Tokens ++ [NewToken k v], lex.source, lex.pos + v.length⟩ := rfl

theorem emitted_of_ok (p : regexPattern) (s : List Char) (lex : Lexer)
    (h : p.handler (CreateLexer s) p.regex = .ok lex) : emitted p s = lex.Tokens := by
  unfold emitted
  rw [h]

/-- A handler of the table does the same at every lexer with the same
remainder: it appends the tokens `emitted` and moves the cursor by the match
length. -/
theorem handler_rebase (rw : List Char → Option TokenKind) :
    ∀ p ∈ patterns rw, ∀ (lex : Lexer) (e : Nat),
      p.regex.matchLen lex.remainder = some e →
      p.handler lex p.regex
        = .ok ⟨lex.Tokens ++ emitted p lex.remainder, lex.source, lex.pos + e⟩ := by
  have hsym : ∀ re, ∀ (lex : Lexer) (e : Nat), re.matchLen lex.remainder = some e →
      symbolHandler rw lex re
        = .ok ⟨lex.Tokens ++ emitted ⟨re, symbolHandler rw⟩ lex.remainder, lex.source,
            lex.pos + e⟩ := by
    intro re lex e h
    have h0 := symbolHandler_ok rw (CreateLexer lex.remainder) re e
      (by rw [remainder_CreateLexer]; exact h)
    rw [symbolHandler_ok rw lex re e h]
    rw [emitted_of_ok _ _ _ h0]
    simp only [remainder_CreateLexer]
    simp [CreateLexer]
  have hnum : ∀ re, ∀ (lex : Lexer) (e : Nat), re.matchLen lex.remainder = some e →
      numberHandler lex re
        = .ok ⟨lex.Tokens ++ emitted ⟨re, numberHandler⟩ lex.remainder, lex.source,
            lex.pos + e⟩ := by
    intro re lex e h
    have h0 := numberHandler_ok (CreateLexer lex.remainder) re e
      (by rw [remainder_CreateLexer]; exact h)
    rw [numberHandler_ok lex re e h]
    rw [emitted_of_ok _ _ _ h0]
    simp only [remainder_CreateLexer]
    simp [CreateLexer]
  have hstr : ∀ re, ∀ (lex : Lexer) (e : Nat), re.matchLen lex.remainder = some e →
      stringHandler lex re
        = .ok ⟨lex.Tokens ++ emitted ⟨re, stringHandler⟩ lex.remainder, lex.source,
            lex.pos + e⟩ := by
    intro re lex e h
    have h0 := stringHandler_ok (CreateLexer lex.remainder) re e
      (by rw [remainder_CreateLexer]; exact h)
    rw [stringHandler_ok lex re e h]
    rw [emitted_of_ok _ _ _ h0]
    simp only [remainder_CreateLexer]
    simp [CreateLexer]
  have hskip : ∀ re, ∀ (lex : Lexer) (e : Nat), re.matchLen lex.remainder = some e →
      skipHandler lex re
        = .ok ⟨lex.Tokens ++ emitted ⟨re, skipHandler⟩ lex.remainder, lex.source,
            lex.pos + e⟩ := by
    intro re lex e h
    have h0 := skipHandler_ok (CreateLexer lex.remainder) re e
      (by rw [remainder_CreateLexer]; exact h)
    rw [skipHandler_ok lex re e h]
    rw [emitted_of_ok _ _ _ h0]
    simp only [remainder_CreateLexer]
    simp [CreateLexer]
  have hdef : ∀ k v, ∀ (lex : Lexer) (e : Nat),
      (Regex.lit v).matchLen lex.remainder = some e →
      defaultHandler k v lex (.lit v)
        = .ok ⟨lex.Tokens ++ emitted ⟨.lit v, defaultHandler k v⟩ lex.remainder, lex.source,
            lex.pos + e⟩ := by
    intro k v lex e h
    obtain ⟨rfl, -⟩ := matchLen_lit v _ e h
    rw [defaultHandler_ok,
      emitted_of_ok ⟨.lit v, defaultHandler k v⟩ lex.remainder _
        (defaultHandler_ok k v (CreateLexer lex.remainder) (.lit v))]
    simp [CreateLexer]
  intro p hp
  simp only [patterns, List.mem_cons, List.mem_singleton, List.not_mem_nil, or_false] at hp
  rcases hp with h | h | h | h | h | h
  · subst h; exact hsym _
  · subst h; exact hnum _
  · subst h; exact hstr _
  · subst h; exact hskip _
  · subst h; exact hskip _
  · repeat (first | (rcases h with h | h; · subst h; exact hdef _ _)
                  | (subst h; exact hdef _ _))

theorem prepend_prepend (a b : List Token) (r : Result) :
    (r.prepend b).prepend a = r.prepend (a ++ b) := by
  cases r <;> simp [Result.prepend]

theorem at_eof_iff_remainder (lex : Lexer) : lex.at_eof = true ↔ lex.remainder = [] := by
  simp [at_eof, remainder, List.drop_eq_nil_iff]

theorem loop_remainder (rw : List Char → Option TokenKind) :
    ∀ fuel lex, loop rw fuel lex
      = (loop rw fuel (CreateLexer lex.remainder)).prepend lex.Tokens := by
  intro fuel
  induction fuel with
  | zero =>
    intro lex
    have h2 := at_eof_iff_remainder (CreateLexer lex.remainder)
    rw [remainder_CreateLexer] at h2
    cases he : lex.at_eof with
    | true =>
      have hr := (at_eof_iff_remainder lex).mp he
      rw [loop_at_eof rw _ lex he, loop_at_eof rw _ _ (h2.mpr hr)]
      simp [Result.prepend, CreateLexer]
    | false =>
      have hr : (CreateLexer lex.remainder).at_eof = false := by
        cases h : (CreateLexer lex.remainder).at_eof with
        | false => rfl
        | true => rw [(at_eof_iff_remainder lex).mpr (h2.mp h)] at he; cases he
      simp [loop_zero, he, hr, Result.prepend]
  | succ n ih =>
    intro lex
    have h2 := at_eof_iff_remainder (CreateLexer lex.remainder)
    rw [remainder_CreateLexer] at h2
    cases he : lex.at_eof with
    | true =>
      have hr := (at_eof_iff_remainder lex).mp he
      rw [loop_at_eof rw _ lex he, loop_at_eof rw _ _ (h2.mpr hr)]
      simp [Result.prepend, CreateLexer]
    | false =>
      have hr : (CreateLexer lex.remainder).at_eof = false := by
        cases h : (CreateLexer lex.remainder).at_eof with
        | false => rfl
        | true => rw [(at_eof_iff_remainder lex).mpr (h2.mp h)] at he; cases he
      cases hf : firstMatch lex.remainder (patterns rw) with
      | none =>
        rw [loop_stuck rw n lex he hf,
          loop_stuck rw n _ hr (by rw [remainder_CreateLexer]; exact hf),
          remainder_CreateLexer]
        rfl
      | some pe =>
        obtain ⟨p, e⟩ := pe
        obtain ⟨hmem, hm⟩ := firstMatch_mem _ _ _ _ hf
        have h1 := handler_rebase rw p hmem lex e hm
        have h0 := handler_rebase rw p hmem (CreateLexer lex.remainder) e
          (by rw [remainder_CreateLexer]; exact hm)
        have e1 := ih ⟨lex.Tokens ++ emitted p lex.remainder, lex.source, lex.pos + e⟩
        have e2 := ih ⟨(CreateLexer lex.remainder).Tokens
            ++ emitted p (CreateLexer lex.remainder).remainder,
          (CreateLexer lex.remainder).source, (CreateLexer lex.remainder).pos + e⟩
        rw [loop_fire rw n lex _ p e he hf h1,
          loop_fire rw n _ _ p e hr (by rw [remainder_CreateLexer]; exact hf) h0,
          e1, e2, prepend_prepend]
        simp [remainder, CreateLexer, Nat.add_comm]

/-! The three equations that determine `Tokenize`. -/

theorem Tokenize_nil (rw : List Char → Option TokenKind) :
    Tokenize rw [] = .returned [eofToken] := rfl

theorem Tokenize_of_none (rw : List Char → Option TokenKind) (s : List Char) (hs : s ≠ [])
    (hf : firstMatch s (patterns rw) = none) :
    Tokenize rw s = .panicked (unrecognized s) := by
  have he : (CreateLexer s).at_eof = false := by
    cases h : (CreateLexer s).at_eof with
    | false => rfl
    | true =>
      rw [at_eof_iff_remainder, remainder_CreateLexer] at h
      exact absurd h hs
  rw [Tokenize_eq_loop rw s (s.length + 1) (by omega),
    loop_stuck rw _ _ he (by rw [remainder_CreateLexer]; exact hf), remainder_CreateLexer]

theorem Tokenize_of_some (rw : List Char → Option TokenKind) (s : List Char) (hs : s ≠ [])
    (p : regexPattern) (e : Nat) (hf : firstMatch s (patterns rw) = some (p, e)) :
    Tokenize rw s = (Tokenize rw (s.drop e)).prepend (emitted p s) := by
  have he : (CreateLexer s).at_eof = false := by
    cases h : (CreateLexer s).at_eof with
    | false => rfl
    | true =>
      rw [at_eof_iff_remainder, remainder_CreateLexer] at h
      exact absurd h hs
  obtain ⟨hmem, hm⟩ := firstMatch_mem _ _ _ _ hf
  have h0 := handler_rebase rw p hmem (CreateLexer s) e
    (by rw [remainder_CreateLexer]; exact hm)
  rw [Tokenize_eq_loop rw s (s.length + 1) (by omega),
    loop_fire rw _ _ _ p e he (by rw [remainder_CreateLexer]; exact hf) h0,
    loop_remainder,
    Tokenize_eq_loop rw (s.drop e) s.length (by simp)]
  simp [remainder, CreateLexer]

/-! ## Closed forms of the matches -/

theorem head_dropWhile (p : Char → Bool) (l : List Char) :
    ∀ x, (l.dropWhile p).head? = some x → p x = false := by
  induction l with
  | nil => intro x hx; simp at hx
  | cons a t ih =>
    intro x hx
    simp only [List.dropWhile] at hx
    cases ha : p a with
    | true => rw [ha] at hx; exact ih x hx
    | false =>
      rw [ha] at hx
      simp only [List.head?_cons, Option.some.injEq] at hx
      rw [← hx]; exact ha

theorem mem_takeWhile (p : Char → Bool) (l : List Char) :
    ∀ x ∈ l.takeWhile p, p x = true := by
  induction l with
  | nil => intro x hx; simp at hx
  | cons a t ih =>
    intro x hx
    simp only [List.takeWhile] at hx
    cases ha : p a with
    | true =>
      rw [ha] at hx
      rcases List.mem_cons.mp hx with rfl | h
      · exact ha
      · exact ih x h
    | false => rw [ha] at hx; simp at hx

theorem ident_closed (c : Char) (t : List Char) (hc : identStart c = true) :
    identRe.matchLen (c :: t) = some ((t.takeWhile identChar).length + 1) := by
  have := ident_matchLen c (t.takeWhile identChar) (t.dropWhile identChar) hc
    (mem_takeWhile _ _) (head_dropWhile _ _)
  rwa [List.takeWhile_append_dropWhile] at this

theorem space_closed (c : Char) (t : List Char) (hc : space c = true) :
    spaceRe.matchLen (c :: t) = some ((t.takeWhile space).length + 1) := by
  obtain ⟨tl, htl⟩ := plus_cls_ends space (c :: t.takeWhile space) (t.dropWhile space)
    (by simp) (by
      intro x hx
      rcases List.mem_cons.mp hx with rfl | h
      · exact hc
      · exact mem_takeWhile _ _ x h) (head_dropWhile _ _)
  rw [List.cons_append, List.takeWhile_append_dropWhile] at htl
  have := matchLen_of_ends spaceRe (c :: t) (c :: t.takeWhile space) (t.dropWhile space) tl
    (by simp) htl
  simpa using this

theorem space_matchLen_none (c : Char) (t : List Char) (hc : space c = false) :
    spaceRe.matchLen (c :: t) = none := by
  simp [Regex.matchLen, Regex.ends, hc]

theorem comment_closed (t : List Char) :
    commentRe.matchLen ('/' :: '/' :: t) = some ((t.takeWhile anyNotNL).length + 2) := by
  obtain ⟨tl, htl⟩ := star_cls_ends anyNotNL (t.takeWhile anyNotNL) (t.dropWhile anyNotNL)
    (mem_takeWhile _ _) (head_dropWhile _ _)
  rw [List.takeWhile_append_dropWhile] at htl
  have h1 : (Regex.lit ['/', '/']).ends ('/' :: '/' :: t) = [t] := by
    simp [Regex.ends, List.isPrefixOf]
  have h2 : commentRe.ends ('/' :: '/' :: t) = t.dropWhile anyNotNL :: tl := by
    rw [Regex.ends, h1, List.flatMap_singleton]
    exact htl
  have := matchLen_of_ends commentRe ('/' :: '/' :: t) ('/' :: '/' :: t.takeWhile anyNotNL)
    (t.dropWhile anyNotNL) tl (by simp) h2
  simpa using this

theorem comment_matchLen_none (s : List Char) (h : List.isPrefixOf ['/', '/'] s = false) :
    commentRe.matchLen s = none := by
  simp [Regex.matchLen, Regex.ends, h]

theorem string_closed (t : List Char) (h : '"' ∈ t) :
    stringRe.matchLen ('"' :: t) = some ((t.takeWhile notQuote).length + 2) := by
  have hd : ∃ r, t.dropWhile notQuote = '"' :: r := by
    cases hdw : t.dropWhile notQuote with
    | nil =>
      exfalso
      have hall : ∀ x ∈ t, notQuote x = true := by
        intro x hx
        have : t.takeWhile notQuote = t := by
          have := List.takeWhile_append_dropWhile notQuote t
          rw [hdw, List.append_nil] at this
          exact this
        rw [← this] at hx
        exact mem_takeWhile _ _ x hx
      have := hall _ h
      simp [notQuote] at this
    | cons x r =>
      have := head_dropWhile notQuote t x (by rw [hdw]; rfl)
      simp only [notQuote, bne_eq_false_iff_eq] at this
      exact ⟨r, by rw [this]⟩
  obtain ⟨r, hr⟩ := hd
  have := string_matchLen (t.takeWhile notQuote) r (mem_takeWhile _ _)
  rw [← hr, List.takeWhile_append_dropWhile] at this
  exact this

theorem string_first_none (c : Char) (t : List Char) (hc : (('"' : Char) == c) = false) :
    stringRe.matchLen (c :: t) = none := by
  simp [Regex.matchLen, Regex.ends, List.isPrefixOf, hc]

theorem number_closed (c : Char) (t : List Char) (hc : digit c = true) :
    numberRe.matchLen (c :: t) = some (numberLen (c :: t)) := by
  have hsplit := List.takeWhile_append_dropWhile digit (c :: t)
  have hd : (c :: t).takeWhile digit ≠ [] := by simp [List.takeWhile, hc]
  unfold numberLen
  split
  · rename_i x y hr
    split
    · rename_i hx
      have := number_matchLen_frac ((c :: t).takeWhile digit) (x :: y.takeWhile digit)
        (y.dropWhile digit) hd (mem_takeWhile _ _) (by simp)
        (by
          intro z hz
          rcases List.mem_cons.mp hz with rfl | h
          · exact hx
          · exact mem_takeWhile _ _ z h) (head_dropWhile _ _)
      rw [List.cons_append, List.takeWhile_append_dropWhile, ← hr, hsplit] at this
      rw [this]
      simp only [List.length_cons]
      congr 1
      omega
    · rename_i hx
      have := number_matchLen_int ((c :: t).takeWhile digit) ((c :: t).dropWhile digit) hd
        (mem_takeWhile _ _) (head_dropWhile _ _)
        (by
          intro r' hr' z hz
          rw [hr] at hr'
          simp only [List.cons.injEq, true_and] at hr'
          subst hr'
          simp only [List.head?_cons, Option.some.injEq] at hz
          subst hz
          simpa using hx)
      rwa [hsplit] at this
  · rename_i hne
    have := number_matchLen_int ((c :: t).takeWhile digit) ((c :: t).dropWhile digit) hd
      (mem_takeWhile _ _) (head_dropWhile _ _)
      (by
        intro r' hr' z hz
        cases r' with
        | nil => simp at hz
        | cons x y =>
          simp only [List.head?_cons, Option.some.injEq] at hz
          subst hz
          exact (hne x y hr').elim)
    rwa [hsplit] at this

theorem lit_closed (v s : List Char) :
    (Regex.lit v).matchLen s = if v.isPrefixOf s then some v.length else none := by
  unfold Regex.matchLen
  simp only [Regex.ends]
  split
  · rename_i hp
    have := (List.isPrefixOf_iff_prefix.mp hp).length_le
    simp only [List.head?_cons, Option.map_some', List.length_drop, Option.some.injEq]
    omega
  · rfl

/-! ## The tokens each handler emits -/

theorem emitted_symbol (rw : List Char → Option TokenKind) (re : Regex) (s : List Char)
    (e : Nat) (h : re.matchLen s = some e) :
    emitted ⟨re, symbolHandler rw⟩ s
      = [NewToken ((rw (s.take e)).getD .IDENTIFIER) (s.take e)] := by
  have h0 := symbolHandler_ok rw (CreateLexer s) re e (by rw [remainder_CreateLexer]; exact h)
  rw [emitted_of_ok ⟨re, symbolHandler rw⟩ s _ h0]
  simp only [remainder_CreateLexer]
  simp [CreateLexer]

theorem emitted_number (re : Regex) (s : List Char) (e : Nat) (h : re.matchLen s = some e) :
    emitted ⟨re, numberHandler⟩ s = [NewToken .NUMBER (s.take e)] := by
  have h0 := numberHandler_ok (CreateLexer s) re e (by rw [remainder_CreateLexer]; exact h)
  rw [emitted_of_ok ⟨re, numberHandler⟩ s _ h0]
  simp only [remainder_CreateLexer]
  simp [CreateLexer]

theorem emitted_string (re : Regex) (s : List Char) (e : Nat) (h : re.matchLen s = some e) :
    emitted ⟨re, stringHandler⟩ s = [NewToken .STRING (s.take e)] := by
  have h0 := stringHandler_ok (CreateLexer s) re e (by rw [remainder_CreateLexer]; exact h)
  rw [emitted_of_ok ⟨re, stringHandler⟩ s _ h0]
  simp only [remainder_CreateLexer]
  simp [CreateLexer]

theorem emitted_skip (re : Regex) (s : List Char) (e : Nat) (h : re.matchLen s = some e) :
    emitted ⟨re, skipHandler⟩ s = [] := by
  have h0 := skipHandler_ok (CreateLexer s) re e (by rw [remainder_CreateLexer]; exact h)
  rw [emitted_of_ok ⟨re, skipHandler⟩ s _ h0]
  simp [CreateLexer]

theorem emitted_default (k : TokenKind) (v s : List Char) :
    emitted ⟨.lit v, defaultHandler k v⟩ s = [NewToken k v] := by
  rw [emitted_of_ok ⟨.lit v, defaultHandler k v⟩ s _
    (defaultHandler_ok k v (CreateLexer s) (.lit v))]
  simp [CreateLexer]

/-! ## The first step, by the first character -/

theorem space_cases (c : Char) (h : space c = true) :
    c = '\t' ∨ c = '\n' ∨ c = '\x0c' ∨ c = '\r' ∨ c = ' ' := by
  simpa [space, or_assoc] using h

theorem identStart_of_space (c : Char) (h : space c = true) : identStart c = false := by
  rcases space_cases c h with rfl | rfl | rfl | rfl | rfl <;> decide

theorem digit_of_space (c : Char) (h : space c = true) : digit c = false := by
  rcases space_cases c h with rfl | rfl | rfl | rfl | rfl <;> decide

theorem quote_of_space (c : Char) (h : space c = true) : (('"' : Char) == c) = false := by
  rcases space_cases c h with rfl | rfl | rfl | rfl | rfl <;> decide

theorem slash_of_space (c : Char) (h : space c = true) : (('/' : Char) == c) = false := by
  rcases space_cases c h with rfl | rfl | rfl | rfl | rfl <;> decide

theorem firstMatch_ident (rw : List Char → Option TokenKind) (c : Char) (t : List Char)
    (hc : identStart c = true) :
    firstMatch (c :: t) (patterns rw)
      = some (⟨identRe, symbolHandler rw⟩, (t.takeWhile identChar).length + 1) := by
  have h := ident_closed c t hc
  simp only [patterns, firstMatch, h]

theorem firstMatch_number (rw : List Char → Option TokenKind) (c : Char) (t : List Char)
    (hc : digit c = true) :
    firstMatch (c :: t) (patterns rw) = some (⟨numberRe, numberHandler⟩, numberLen (c :: t)) := by
  have h1 := ident_matchLen_none c t (identStart_of_digit c hc)
  have h2 := number_closed c t hc
  simp only [patterns, firstMatch, h1, h2]

theorem firstMatch_string (rw : List Char → Option TokenKind) (t : List Char) (h : '"' ∈ t) :
    firstMatch ('"' :: t) (patterns rw)
      = some (⟨stringRe, stringHandler⟩, (t.takeWhile notQuote).length + 2) := by
  have h1 := ident_matchLen_none '"' t (by decide)
  have h2 := number_matchLen_none '"' t (by decide)
  have h3 := string_closed t h
  simp only [patterns, firstMatch, h1, h2, h3]

theorem firstMatch_comment (rw : List Char → Option TokenKind) (t : List Char) :
    firstMatch ('/' :: '/' :: t) (patterns rw)
      = some (⟨commentRe, skipHandler⟩, (t.takeWhile anyNotNL).length + 2) := by
  have h1 := ident_matchLen_none '/' ('/' :: t) (by decide)
  have h2 := number_matchLen_none '/' ('/' :: t) (by decide)
  have h3 := string_first_none '/' ('/' :: t) (by decide)
  have h4 := comment_closed t
  simp only [patterns, firstMatch, h1, h2, h3, h4]

theorem firstMatch_space (rw : List Char → Option TokenKind) (c : Char) (t : List Char)
    (hc : space c = true) :
    firstMatch (c :: t) (patterns rw)
      = some (⟨spaceRe, skipHandler⟩, (t.takeWhile space).length + 1) := by
  have h1 := ident_matchLen_none c t (identStart_of_space c hc)
  have h2 := number_matchLen_none c t (digit_of_space c hc)
  have h3 := string_first_none c t (quote_of_space c hc)
  have h4 := comment_matchLen_none (c :: t)
    (by simp [List.isPrefixOf, slash_of_space c hc])
  have h5 := space_closed c t hc
  simp only [patterns, firstMatch, h1, h2, h3, h4, h5]

/-- The entries of the table after the first five: the fixed symbols. -/
theorem patterns_drop (rw : List Char → Option TokenKind) :
    (patterns rw).drop 5
      = fixedSymbols.map (fun kv => ⟨.lit kv.2, defaultHandler kv.1 kv.2⟩) := rfl

theorem firstMatch_symbol (rw : List Char → Option TokenKind) (c : Char) (t : List Char)
    (h1 : identStart c = false) (h2 : digit c = false) (h3 : (('"' : Char) == c) = false)
    (h4 : List.isPrefixOf ['/', '/'] (c :: t) = false) (h5 : space c = false) :
    firstMatch (c :: t) (patterns rw)
      = firstMatch (c :: t)
          (fixedSymbols.map (fun kv => ⟨.lit kv.2, defaultHandler kv.1 kv.2⟩)) := by
  rw [← patterns_drop rw]
  have e1 := ident_matchLen_none c t h1
  have e2 := number_matchLen_none c t h2
  have e3 := string_first_none c t h3
  have e4 := comment_matchLen_none (c :: t) h4
  have e5 := space_matchLen_none c t h5
  conv_lhs => rw [patterns]
  simp only [firstMatch, e1, e2, e3, e4, e5]

theorem prepend_nil (r : Result) : r.prepend [] = r := by
  cases r <;> simp [Result.prepend]

theorem drop_length_takeWhile (p : Char → Bool) (l : List Char) :
    l.drop (l.takeWhile p).length = l.dropWhile p := by
  have h := List.takeWhile_append_dropWhile p l
  have := List.drop_left (l.takeWhile p) (l.dropWhile p)
  rwa [h] at this

theorem take_length_takeWhile (p : Char → Bool) (l : List Char) :
    l.take (l.takeWhile p).length = l.takeWhile p := by
  have h := List.takeWhile_append_dropWhile p l
  have := List.take_left (l.takeWhile p) (l.dropWhile p)
  rwa [h] at this

/-- A whole-source match: one step, then the end of input. -/
theorem Tokenize_whole (rw : List Char → Option TokenKind) (s : List Char) (hs : s ≠ [])
    (p : regexPattern) (hf : firstMatch s (patterns rw) = some (p, s.length)) :
    Tokenize rw s = .returned (emitted p s ++ [eofToken]) := by
  rw [Tokenize_of_some rw s hs p _ hf, List.drop_length, Tokenize_nil]
  rfl

/-- Leading whitespace is skipped. -/
theorem Tokenize_skip_space (rw : List Char → Option TokenKind) (s : List Char) :
    Tokenize rw s = Tokenize rw (s.dropWhile space) := by
  cases s with
  | nil => rfl
  | cons c t =>
    cases hc : space c with
    | false => simp [List.dropWhile, hc]
    | true =>
      have hf := firstMatch_space rw c t hc
      rw [Tokenize_of_some rw _ (by simp) _ _ hf, emitted_skip _ _ _ (space_closed c t hc),
        prepend_nil]
      simp [List.dropWhile, hc, drop_length_takeWhile]

/-- A line comment is skipped up to the end of its line. -/
theorem Tokenize_skip_comment (rw : List Char → Option TokenKind) (t : List Char) :
    Tokenize rw ('/' :: '/' :: t) = Tokenize rw (t.dropWhile anyNotNL) := by
  have hf := firstMatch_comment rw t
  rw [Tokenize_of_some rw _ (by simp) _ _ hf, emitted_skip _ _ _ (comment_closed t),
    prepend_nil]
  simp [drop_length_takeWhile]

theorem firstMatch_dash (rw : List Char → Option TokenKind) (c : Char) (t : List Char)
    (hc : digit c = true) :
    firstMatch ('-' :: c :: t) (patterns rw) = some (⟨.lit ['-'], defaultHandler .DASH ['-']⟩, 1) := by
  have h95 : digit '-' = false := by decide
  have h96 : digit '=' = false := by decide
  have hm : (('-' : Char) == c) = false := by
    cases h : (('-' : Char) == c) with
    | false => rfl
    | true =>
      rw [beq_iff_eq] at h
      rw [← h, h95] at hc
      cases hc
  have he : (('=' : Char) == c) = false := by
    cases h : (('=' : Char) == c) with
    | false => rfl
    | true =>
      rw [beq_iff_eq] at h
      rw [← h, h96] at hc
      cases hc
  rw [firstMatch_symbol rw '-' (c :: t) (by decide) (by decide) (by decide)
    (by simp [List.isPrefixOf, hm]) (by decide)]
  simp [fixedSymbols, firstMatch, lit_closed, List.isPrefixOf, hm, he]

/-- A text that the numeric recognizer matches whole is one `NUMBER` token. -/
theorem Tokenize_number_whole (rw : List Char → Option TokenKind) (c : Char) (t : List Char)
    (hc : digit c = true) (hm : numberRe.matchLen (c :: t) = some (c :: t).length) :
    Tokenize rw (c :: t) = .returned [NewToken .NUMBER (c :: t), eofToken] := by
  have hf : firstMatch (c :: t) (patterns rw)
      = some (⟨numberRe, numberHandler⟩, (c :: t).length) := by
    have h1 := ident_matchLen_none c t (identStart_of_digit c hc)
    simp only [patterns, firstMatch, h1, hm]
  rw [Tokenize_whole rw _ (by simp) _ hf, emitted_number _ _ _ hm]
  simp

/-! ## Induction along a returning run -/

theorem firstMatch_pos (rw : List Char → Option TokenKind) (s : List Char)
    (p : regexPattern) (e : Nat) (hf : firstMatch s (patterns rw) = some (p, e)) :
    0 < e ∧ e ≤ s.length ∧ p ∈ patterns rw ∧ p.regex.matchLen s = some e := by
  obtain ⟨hmem, hm⟩ := firstMatch_mem _ _ _ _ hf
  obtain ⟨-, hc⟩ := patterns_handle rw p hmem
  obtain ⟨t, ht, -, hl, -⟩ := matchLen_eq_some _ _ _ hm
  have hlt := ends_consumes _ hc _ _ (List.mem_of_mem_head? ht)
  exact ⟨by omega, by omega, hmem, hm⟩

theorem Tokenize_returned_ne_nil (rw : List Char → Option TokenKind) (s : List Char)
    (ts : List Token) (h : Tokenize rw s = .returned ts) :
    ∃ init, ts = init ++ [eofToken] :=
  loop_returned_last rw _ _ _ h

theorem prepend_eq_returned (a : List Token) (r : Result) (ts : List Token)
    (h : r.prepend a = .returned ts) : ∃ us, r = .returned us ∧ ts = a ++ us := by
  cases r with
  | returned us =>
    simp only [Result.prepend, Result.returned.injEq] at h
    exact ⟨us, rfl, h.symm⟩
  | panicked m => simp [Result.prepend] at h
  | outOfFuel => simp [Result.prepend] at h

theorem Tokenize_induction (rw : List Char → Option TokenKind)
    (P : List Char → List Token → Prop) (hnil : P [] [eofToken])
    (hstep : ∀ s p e ts, s ≠ [] → firstMatch s (patterns rw) = some (p, e) →
      Tokenize rw (s.drop e) = .returned ts → P (s.drop e) ts → P s (emitted p s ++ ts)) :
    ∀ s ts, Tokenize rw s = .returned ts → P s ts := by
  have main : ∀ n s, s.length ≤ n → ∀ ts, Tokenize rw s = .returned ts → P s ts := by
    intro n
    induction n with
    | zero =>
      intro s hs ts h
      have : s = [] := List.length_eq_zero.mp (by omega)
      subst this
      rw [Tokenize_nil] at h
      simp only [Result.returned.injEq] at h
      rw [← h]
      exact hnil
    | succ n ih =>
      intro s hs ts h
      by_cases hnil' : s = []
      · subst hnil'
        rw [Tokenize_nil] at h
        simp only [Result.returned.injEq] at h
        rw [← h]
        exact hnil
      · cases hf : firstMatch s (patterns rw) with
        | none =>
          rw [Tokenize_of_none rw s hnil' hf] at h
          simp at h
        | some pe =>
          obtain ⟨p, e⟩ := pe
          obtain ⟨hpos, hle, -, -⟩ := firstMatch_pos rw s p e hf
          rw [Tokenize_of_some rw s hnil' p e hf] at h
          obtain ⟨us, hus, rfl⟩ := prepend_eq_returned _ _ _ h
          have hlen : (s.drop e).length ≤ n := by
            simp only [List.length_drop]
            omega
          exact hstep s p e us hnil' hf hus (ih _ hlen us hus)
  intro s ts h
  exact main s.length s (le_refl _) ts h

/-! ## Tokens re-lex to themselves -/

theorem takeWhile_all (p : Char → Bool) (l : List Char) (h : ∀ x ∈ l, p x = true) :
    l.takeWhile p = l := by
  induction l with
  | nil => rfl
  | cons a t ih =>
    simp only [List.takeWhile, h a (List.mem_cons_self _ _)]
    rw [ih (fun x hx => h x (List.mem_cons_of_mem _ hx))]

theorem relex_ident (rw : List Char → Option TokenKind) (c : Char) (w : List Char)
    (hc : identStart c = true) (hw : ∀ x ∈ w, identChar x = true) :
    Tokenize rw (c :: w)
      = .returned [NewToken ((rw (c :: w)).getD .IDENTIFIER) (c :: w), eofToken] := by
  have hf := firstMatch_ident rw c w hc
  have hm := ident_closed c w hc
  rw [takeWhile_all identChar w hw] at hf hm
  rw [Tokenize_whole rw _ (by simp) _ hf, emitted_symbol rw _ _ _ hm]
  simp

theorem relex_string (rw : List Char → Option TokenKind) (w : List Char)
    (hw : ∀ x ∈ w, notQuote x = true) :
    Tokenize rw ('"' :: (w ++ ['"']))
      = .returned [NewToken .STRING ('"' :: (w ++ ['"'])), eofToken] := by
  have hm := string_matchLen w [] hw
  have hf : firstMatch ('"' :: (w ++ ['"'])) (patterns rw)
      = some (⟨stringRe, stringHandler⟩, ('"' :: (w ++ ['"'])).length) := by
    have h1 := ident_matchLen_none '"' (w ++ ['"']) (by decide)
    have h2 := number_matchLen_none '"' (w ++ ['"']) (by decide)
    simp only [patterns, firstMatch, h1, h2, hm]
    simp
  have hm' : stringRe.matchLen ('"' :: (w ++ ['"'])) = some ('"' :: (w ++ ['"'])).length := by
    rw [hm]
    simp
  rw [Tokenize_whole rw _ (by simp) _ hf, emitted_string _ _ _ hm', List.take_length]
  rfl

theorem relex_symbol (rw : List Char → Option TokenKind) :
    ∀ kv ∈ fixedSymbols,
      Tokenize rw kv.2 = .returned [NewToken kv.1 kv.2, eofToken] := by
  intro kv hkv
  simp only [fixedSymbols] at hkv
  fin_cases hkv <;> rfl

theorem number_take_matches (c : Char) (t : List Char) (hc : digit c = true) :
    numberRe.matchLen ((c :: t).take (numberLen (c :: t)))
      = some ((c :: t).take (numberLen (c :: t))).length ∧
    ∃ w, (c :: t).take (numberLen (c :: t)) = c :: w := by
  have hsplit := List.takeWhile_append_dropWhile digit (c :: t)
  have hd : (c :: t).takeWhile digit = c :: t.takeWhile digit := by
    simp [List.takeWhile, hc]
  have hdne : (c :: t).takeWhile digit ≠ [] := by rw [hd]; simp
  have hint := number_matchLen_int ((c :: t).takeWhile digit) [] hdne (mem_takeWhile _ _)
    (head?_nil_imp _) (by intro r' hr'; simp at hr')
  rw [List.append_nil] at hint
  unfold numberLen
  split
  · rename_i x y hr
    split
    · rename_i hx
      have hfrac := number_matchLen_frac ((c :: t).takeWhile digit) (x :: y.takeWhile digit) []
        hdne (mem_takeWhile _ _) (by simp)
        (by
          intro z hz
          rcases List.mem_cons.mp hz with rfl | h
          · exact hx
          · exact mem_takeWhile _ _ z h) (head?_nil_imp _)
      rw [List.append_nil] at hfrac
      have hs : c :: t = ((c :: t).takeWhile digit ++ '.' :: x :: y.takeWhile digit)
          ++ y.dropWhile digit := by
        rw [List.append_assoc, List.cons_append, List.cons_append,
          List.takeWhile_append_dropWhile, ← hr, hsplit]
      have hlen : (List.takeWhile digit (c :: t)).length + 2 + (List.takeWhile digit y).length
          = ((c :: t).takeWhile digit ++ '.' :: x :: y.takeWhile digit).length := by
        simp only [List.length_append, List.length_cons]
        omega
      have htake : (c :: t).take ((List.takeWhile digit (c :: t)).length + 2
          + (List.takeWhile digit y).length)
          = (c :: t).takeWhile digit ++ '.' :: x :: y.takeWhile digit := by
        rw [hlen]
        have := List.take_left ((c :: t).takeWhile digit ++ '.' :: x :: y.takeWhile digit)
          (y.dropWhile digit)
        rwa [← hs] at this
      rw [htake]
      refine ⟨?_, ?_⟩
      · rw [hfrac]
        simp only [List.length_append, List.length_cons]
        congr 1
        omega
      · rw [hd]
        exact ⟨_, rfl⟩
    · rw [take_length_takeWhile]
      exact ⟨hint, by rw [hd]; exact ⟨_, rfl⟩⟩
  · rw [take_length_takeWhile]
    exact ⟨hint, by rw [hd]; exact ⟨_, rfl⟩⟩

theorem relex_number (rw : List Char → Option TokenKind) (c : Char) (t : List Char)
    (hc : digit c = true) :
    Tokenize rw ((c :: t).take (numberLen (c :: t)))
      = .returned [NewToken .NUMBER ((c :: t).take (numberLen (c :: t))), eofToken] := by
  obtain ⟨hm, w, hw⟩ := number_take_matches c t hc
  rw [hw] at hm ⊢
  exact Tokenize_number_whole rw c w hc hm

theorem skipText_space (c : Char) (t : List Char) (hc : space c = true) :
    skipText (c :: t.takeWhile space) := by
  left
  refine ⟨by simp, ?_⟩
  intro x hx
  have hsx : space x = true := by
    rcases List.mem_cons.mp hx with rfl | h
    · exact hc
    · exact mem_takeWhile _ _ x h
  rcases space_cases x hsx with h | h | h | h | h
  · exact Or.inr (Or.inl h)
  · exact Or.inr (Or.inr (Or.inl h))
  · exact Or.inr (Or.inr (Or.inr (Or.inr h)))
  · exact Or.inr (Or.inr (Or.inr (Or.inl h)))
  · exact Or.inl h

theorem skipText_comment (t : List Char) :
    skipText ('/' :: '/' :: t.takeWhile anyNotNL) := by
  right
  refine ⟨t.takeWhile anyNotNL, rfl, ?_⟩
  intro h
  have := mem_takeWhile anyNotNL t _ h
  simp [anyNotNL] at this

/-- What one step of a run does: it skips a whitespace run or a line comment
and emits nothing, or it emits one token, whose value is the text consumed and
which tokenizes to itself. -/
theorem step_cases (rw : List Char → Option TokenKind) (s : List Char) (p : regexPattern)
    (e : Nat) (hf : firstMatch s (patterns rw) = some (p, e)) :
    (emitted p s = [] ∧ skipText (s.take e)) ∨
    (∃ k, emitted p s = [NewToken k (s.take e)] ∧
      Tokenize rw (s.take e) = .returned [NewToken k (s.take e), eofToken]) := by
  obtain ⟨hpos, hle, -, -⟩ := firstMatch_pos rw s p e hf
  cases s with
  | nil => simp at hle; omega
  | cons c t =>
    by_cases h1 : identStart c = true
    · rw [firstMatch_ident rw c t h1] at hf
      simp only [Option.some.injEq, Prod.mk.injEq] at hf
      obtain ⟨rfl, rfl⟩ := hf
      right
      have htake : (c :: t).take ((t.takeWhile identChar).length + 1)
          = c :: t.takeWhile identChar := by
        rw [List.take_succ_cons, take_length_takeWhile]
      have hem := emitted_symbol rw _ _ _ (ident_closed c t h1)
      rw [htake] at hem ⊢
      exact ⟨_, hem, relex_ident rw c _ h1 (mem_takeWhile _ _)⟩
    by_cases h2 : digit c = true
    · rw [firstMatch_number rw c t h2] at hf
      simp only [Option.some.injEq, Prod.mk.injEq] at hf
      obtain ⟨rfl, rfl⟩ := hf
      right
      exact ⟨_, emitted_number _ _ _ (number_closed c t h2), relex_number rw c t h2⟩
    by_cases h3 : c = '"'
    · subst h3
      by_cases hq : '"' ∈ t
      · rw [firstMatch_string rw t hq] at hf
        simp only [Option.some.injEq, Prod.mk.injEq] at hf
        obtain ⟨rfl, rfl⟩ := hf
        right
        have hdw : ∃ r, t.dropWhile notQuote = '"' :: r := by
          cases hdw : t.dropWhile notQuote with
          | nil =>
            exfalso
            have : t.takeWhile notQuote = t := by
              have := List.takeWhile_append_dropWhile notQuote t
              rw [hdw, List.append_nil] at this
              exact this
            rw [← this] at hq
            have := mem_takeWhile _ _ _ hq
            simp [notQuote] at this
          | cons x r =>
            have := head_dropWhile notQuote t x (by rw [hdw]; rfl)
            simp only [notQuote, bne_eq_false_iff_eq] at this
            exact ⟨r, by rw [this]⟩
        obtain ⟨r, hr⟩ := hdw
        have hs : ('"' :: t) = ('"' :: (t.takeWhile notQuote ++ ['"'])) ++ r := by
          have := List.takeWhile_append_dropWhile notQuote t
          rw [hr] at this
          simp [this]
        have htake : ('"' :: t).take ((t.takeWhile notQuote).length + 2)
            = '"' :: (t.takeWhile notQuote ++ ['"']) := by
          have hl : (t.takeWhile notQuote).length + 2
              = ('"' :: (t.takeWhile notQuote ++ ['"'])).length := by simp
          rw [hl]
          have := List.take_left ('"' :: (t.takeWhile notQuote ++ ['"'])) r
          rwa [← hs] at this
        have hem := emitted_string _ _ _ (string_closed t hq)
        rw [htake] at hem ⊢
        exact ⟨_, hem, relex_string rw _ (mem_takeWhile _ _)⟩
      · rw [firstMatch_quote_none rw t hq] at hf
        simp at hf
    by_cases h5 : space c = true
    · rw [firstMatch_space rw c t h5] at hf
      simp only [Option.some.injEq, Prod.mk.injEq] at hf
      obtain ⟨rfl, rfl⟩ := hf
      left
      refine ⟨emitted_skip _ _ _ (space_closed c t h5), ?_⟩
      rw [List.take_succ_cons, take_length_takeWhile]
      exact skipText_space c t h5
    by_cases h4 : List.isPrefixOf ['/', '/'] (c :: t) = true
    · have : ∃ t', c :: t = '/' :: '/' :: t' := by
        obtain ⟨t', ht'⟩ := List.isPrefixOf_iff_prefix.mp h4
        exact ⟨t', ht'.symm⟩
      obtain ⟨t', ht'⟩ := this
      rw [ht'] at hf ⊢
      rw [firstMatch_comment rw t'] at hf
      simp only [Option.some.injEq, Prod.mk.injEq] at hf
      obtain ⟨rfl, rfl⟩ := hf
      left
      refine ⟨emitted_skip _ _ _ (comment_closed t'), ?_⟩
      rw [List.take_succ_cons, List.take_succ_cons, take_length_takeWhile]
      exact skipText_comment t'
    · have h3' : (('"' : Char) == c) = false := by
        simp only [beq_eq_false_iff_ne, ne_eq]
        exact fun h => h3 h.symm
      have h4' : List.isPrefixOf ['/', '/'] (c :: t) = false := by
        cases h : List.isPrefixOf ['/', '/'] (c :: t) with
        | false => rfl
        | true => exact absurd h h4
      rw [firstMatch_symbol rw c t (by simpa using h1) (by simpa using h2) h3'
        h4' (by simpa using h5)] at hf
      obtain ⟨hmem, hm⟩ := firstMatch_mem _ _ _ _ hf
      simp only [List.mem_map] at hmem
      obtain ⟨kv, hkv, rfl⟩ := hmem
      obtain ⟨rfl, htk⟩ := matchLen_lit _ _ _ hm
      right
      refine ⟨kv.1, ?_, ?_⟩
      · rw [htk]
        exact emitted_default _ _ _
      · rw [htk]
        exact relex_symbol rw kv hkv

theorem weave_cons_append (a g : List Char) (gs : List (List Char)) (ts : List Token) :
    weave ((a ++ g) :: gs) ts = a ++ weave (g :: gs) ts := by
  cases ts with
  | nil => rfl
  | cons t ts => simp [weave]

theorem dropLast_append_ne_nil (a ts : List Token) (h : ∃ init, ts = init ++ [eofToken]) :
    (a ++ ts).dropLast = a ++ ts.dropLast := by
  obtain ⟨init, rfl⟩ := h
  rw [← List.append_assoc, List.dropLast_concat, List.dropLast_concat]

/-! ## First match and longest match -/

theorem matchLen_nil_of_consumes (re : Regex) (h : re.consumes = true) :
    re.matchLen [] = none := by
  cases hm : re.matchLen [] with
  | none => rfl
  | some e =>
    obtain ⟨t, ht, -, -, -⟩ := matchLen_eq_some _ _ _ hm
    have := ends_consumes re h _ _ (List.mem_of_mem_head? ht)
    simp at this

theorem ident_first (s : List Char) (e : Nat) (h : identRe.matchLen s = some e) :
    ∃ c t, s = c :: t ∧ identStart c = true := by
  cases s with
  | nil => rw [matchLen_nil_of_consumes _ (by rfl)] at h; cases h
  | cons c t =>
    cases hc : identStart c with
    | true => exact ⟨c, t, rfl, hc⟩
    | false => rw [ident_matchLen_none c t hc] at h; cases h

theorem number_first (s : List Char) (e : Nat) (h : numberRe.matchLen s = some e) :
    ∃ c t, s = c :: t ∧ digit c = true := by
  cases s with
  | nil => rw [matchLen_nil_of_consumes _ (by rfl)] at h; cases h
  | cons c t =>
    cases hc : digit c with
    | true => exact ⟨c, t, rfl, hc⟩
    | false => rw [number_matchLen_none c t hc] at h; cases h

theorem string_first (s : List Char) (e : Nat) (h : stringRe.matchLen s = some e) :
    ∃ t, s = '"' :: t := by
  cases s with
  | nil => rw [matchLen_nil_of_consumes _ (by rfl)] at h; cases h
  | cons c t =>
    cases hc : (('"' : Char) == c) with
    | true => rw [beq_iff_eq] at hc; exact ⟨t, by rw [hc]⟩
    | false => rw [string_first_none c t hc] at h; cases h

theorem comment_first (s : List Char) (e : Nat) (h : commentRe.matchLen s = some e) :
    ∃ t, s = '/' :: '/' :: t ∧ 2 ≤ e := by
  cases hp : List.isPrefixOf ['/', '/'] s with
  | false => rw [comment_matchLen_none s hp] at h; cases h
  | true =>
    obtain ⟨t, ht⟩ := List.isPrefixOf_iff_prefix.mp hp
    refine ⟨t, ht.symm, ?_⟩
    rw [← ht] at h
    have := comment_closed t
    simp only [List.cons_append, List.nil_append] at h
    rw [this] at h
    simp only [Option.some.injEq] at h
    omega

theorem space_first (s : List Char) (e : Nat) (h : spaceRe.matchLen s = some e) :
    ∃ c t, s = c :: t ∧ space c = true := by
  cases s with
  | nil => rw [matchLen_nil_of_consumes _ (by rfl)] at h; cases h
  | cons c t =>
    cases hc : space c with
    | true => exact ⟨c, t, rfl, hc⟩
    | false => rw [space_matchLen_none c t hc] at h; cases h

theorem lit_first (v s : List Char) (e : Nat) (h : (Regex.lit v).matchLen s = some e) :
    v <+: s ∧ e = v.length := by
  rw [lit_closed] at h
  split at h
  · rename_i hp
    simp only [Option.some.injEq] at h
    exact ⟨List.isPrefixOf_iff_prefix.mp hp, h.symm⟩
  · cases h

theorem symbolHead_fixed : ∀ kv ∈ fixedSymbols, symbolHead kv.2 = true := by decide

theorem fixed_pairwise :
    fixedSymbols.Pairwise (fun a b => List.isPrefixOf a.2 b.2 = false) := by decide

theorem beats_lit_lit (a b : TokenKind × List Char)
    (h : List.isPrefixOf a.2 b.2 = false) :
    beats ⟨.lit a.2, defaultHandler a.1 a.2⟩ ⟨.lit b.2, defaultHandler b.1 b.2⟩ := by
  intro s e e' ha hb
  obtain ⟨hpa, rfl⟩ := lit_first _ _ _ ha
  obtain ⟨hpb, rfl⟩ := lit_first _ _ _ hb
  have hnot : ¬ a.2 <+: b.2 := by
    intro hp
    rw [List.isPrefixOf_iff_prefix.mpr hp] at h
    cases h
  rcases Nat.lt_or_ge b.2.length a.2.length with hlt | hge
  · exact hlt
  · exact absurd (List.prefix_of_prefix_length_le hpa hpb hge) hnot

theorem beats_five_lit (rw : List Char → Option TokenKind) :
    ∀ p ∈ (patterns rw).take 5, ∀ kv ∈ fixedSymbols,
      beats p ⟨.lit kv.2, defaultHandler kv.1 kv.2⟩ := by
  intro p hp kv hkv s e e' h1 h2
  have hh := symbolHead_fixed kv hkv
  obtain ⟨k, v⟩ := kv
  simp only at hh h2
  obtain ⟨hpre, rfl⟩ := lit_first _ _ _ h2
  cases v with
  | nil => simp [symbolHead] at hh
  | cons a l =>
    simp only [symbolHead, Bool.and_eq_true, Bool.not_eq_true', bne_iff_ne, ne_eq,
      Bool.or_eq_true, List.isEmpty_iff] at hh
    obtain ⟨⟨⟨⟨hi, hd⟩, hq⟩, hsp⟩, hsl⟩ := hh
    obtain ⟨r, hr⟩ := hpre
    simp only [patterns, List.take_succ_cons, List.take_zero, List.mem_cons,
      List.mem_singleton, List.not_mem_nil, or_false] at hp
    rcases hp with rfl | rfl | rfl | rfl | rfl
    · obtain ⟨c, t, hs, hc⟩ := ident_first s e h1
      rw [← hr] at hs
      simp only [List.cons_append, List.cons.injEq] at hs
      rw [← hs.1, hi] at hc
      cases hc
    · obtain ⟨c, t, hs, hc⟩ := number_first s e h1
      rw [← hr] at hs
      simp only [List.cons_append, List.cons.injEq] at hs
      rw [← hs.1, hd] at hc
      cases hc
    · obtain ⟨t, hs⟩ := string_first s e h1
      rw [← hr] at hs
      simp only [List.cons_append, List.cons.injEq] at hs
      exact absurd hs.1 hq
    · obtain ⟨t, hs, he⟩ := comment_first s e h1
      rw [← hr] at hs
      simp only [List.cons_append, List.cons.injEq] at hs
      rcases hsl with hne | hl
      · exact absurd hs.1 hne
      · subst hl
        simp only [List.length_cons, List.length_nil]
        omega
    · obtain ⟨c, t, hs, hc⟩ := space_first s e h1
      rw [← hr] at hs
      simp only [List.cons_append, List.cons.injEq] at hs
      rw [← hs.1, hsp] at hc
      cases hc

theorem beats_five (rw : List Char → Option TokenKind) :
    ((patterns rw).take 5).Pairwise beats := by
  have hq1 : identStart '"' = false := by decide
  have hq2 : digit '"' = false := by decide
  have hq3 : space '"' = false := by decide
  have hs1 : identStart '/' = false := by decide
  have hs2 : digit '/' = false := by decide
  have hs3 : space '/' = false := by decide
  simp only [patterns, List.take_succ_cons, List.take_zero, List.pairwise_cons,
    List.mem_cons, List.mem_singleton, List.not_mem_nil, or_false, forall_eq_or_imp,
    forall_eq, List.Pairwise.nil, and_true, IsEmpty.forall_iff, implies_true]
  refine ⟨⟨?_, ?_, ?_, ?_⟩, ⟨?_, ?_, ?_⟩, ⟨?_, ?_⟩, ?_⟩
  · intro s e e' h1 h2
    obtain ⟨c, t, rfl, hc⟩ := ident_first s e h1
    obtain ⟨c', t', hs, hc'⟩ := number_first _ e' h2
    simp only [List.cons.injEq] at hs
    rw [identStart_of_digit c (by rw [hs.1]; exact hc')] at hc
    cases hc
  · intro s e e' h1 h2
    obtain ⟨c, t, rfl, hc⟩ := ident_first s e h1
    obtain ⟨t', hs⟩ := string_first _ e' h2
    simp only [List.cons.injEq] at hs
    rw [hs.1, hq1] at hc
    cases hc
  · intro s e e' h1 h2
    obtain ⟨c, t, rfl, hc⟩ := ident_first s e h1
    obtain ⟨t', hs, -⟩ := comment_first _ e' h2
    simp only [List.cons.injEq] at hs
    rw [hs.1, hs1] at hc
    cases hc
  · intro s e e' h1 h2
    obtain ⟨c, t, rfl, hc⟩ := ident_first s e h1
    obtain ⟨c', t', hs, hc'⟩ := space_first _ e' h2
    simp only [List.cons.injEq] at hs
    rw [identStart_of_space c (by rw [hs.1]; exact hc')] at hc
    cases hc
  · intro s e e' h1 h2
    obtain ⟨c, t, rfl, hc⟩ := number_first s e h1
    obtain ⟨t', hs⟩ := string_first _ e' h2
    simp only [List.cons.injEq] at hs
    rw [hs.1, hq2] at hc
    cases hc
  · intro s e e' h1 h2
    obtain ⟨c, t, rfl, hc⟩ := number_first s e h1
    obtain ⟨t', hs, -⟩ := comment_first _ e' h2
    simp only [List.cons.injEq] at hs
    rw [hs.1, hs2] at hc
    cases hc
  · intro s e e' h1 h2
    obtain ⟨c, t, rfl, hc⟩ := number_first s e h1
    obtain ⟨c', t', hs, hc'⟩ := space_first _ e' h2
    simp only [List.cons.injEq] at hs
    rw [digit_of_space c (by rw [hs.1]; exact hc')] at hc
    cases hc
  · intro s e e' h1 h2
    obtain ⟨t, rfl⟩ := string_first s e h1
    obtain ⟨t', hs, -⟩ := comment_first _ e' h2
    simp only [List.cons.injEq] at hs
    exact absurd hs.1 (by decide)
  · intro s e e' h1 h2
    obtain ⟨t, rfl⟩ := string_first s e h1
    obtain ⟨c', t', hs, hc'⟩ := space_first _ e' h2
    simp only [List.cons.injEq] at hs
    rw [← hs.1, hq3] at hc'
    cases hc'
  · intro s e e' h1 h2
    obtain ⟨t, rfl, -⟩ := comment_first s e h1
    obtain ⟨c', t', hs, hc'⟩ := space_first _ e' h2
    simp only [List.cons.injEq] at hs
    rw [← hs.1, hs3] at hc'
    cases hc'

theorem patterns_pairwise (rw : List Char → Option TokenKind) :
    (patterns rw).Pairwise beats := by
  have hsplit : patterns rw = (patterns rw).take 5 ++ (patterns rw).drop 5 :=
    (List.take_append_drop 5 _).symm
  rw [hsplit, List.pairwise_append]
  refine ⟨beats_five rw, ?_, ?_⟩
  · rw [patterns_drop, List.pairwise_map]
    exact fixed_pairwise.imp (fun {a b} h => beats_lit_lit a b h)
  · intro p hp q hq
    rw [patterns_drop, List.mem_map] at hq
    obtain ⟨kv, hkv, rfl⟩ := hq
    exact beats_five_lit rw p hp kv hkv

theorem longestMatch_mem (s : List Char) :
    ∀ ps q e, longestMatch s ps = some (q, e) → q ∈ ps ∧ q.regex.matchLen s = some e := by
  intro ps
  induction ps with
  | nil => intro q e h; simp [longestMatch] at h
  | cons p ps ih =>
    intro q e h
    simp only [longestMatch] at h
    cases hm : p.regex.matchLen s with
    | none =>
      simp only [hm] at h
      obtain ⟨h1, h2⟩ := ih q e h
      exact ⟨List.mem_cons_of_mem _ h1, h2⟩
    | some e0 =>
      cases hl : longestMatch s ps with
      | none =>
        simp only [hm, hl, Option.some.injEq, Prod.mk.injEq] at h
        obtain ⟨rfl, rfl⟩ := h
        exact ⟨List.mem_cons_self _ _, hm⟩
      | some qe =>
        obtain ⟨q', e'⟩ := qe
        simp only [hm, hl] at h
        split at h
        · simp only [Option.some.injEq, Prod.mk.injEq] at h
          obtain ⟨rfl, rfl⟩ := h
          obtain ⟨h1, h2⟩ := ih _ _ hl
          exact ⟨List.mem_cons_of_mem _ h1, h2⟩
        · simp only [Option.some.injEq, Prod.mk.injEq] at h
          obtain ⟨rfl, rfl⟩ := h
          exact ⟨List.mem_cons_self _ _, hm⟩

theorem firstMatch_eq_longestMatch (s : List Char) :
    ∀ ps : List regexPattern, ps.Pairwise beats → firstMatch s ps = longestMatch s ps := by
  intro ps
  induction ps with
  | nil => intro _; rfl
  | cons p ps ih =>
    intro hpw
    rw [List.pairwise_cons] at hpw
    obtain ⟨hp, hps⟩ := hpw
    simp only [firstMatch, longestMatch]
    cases hm : p.regex.matchLen s with
    | none => exact ih hps
    | some e =>
      cases hl : longestMatch s ps with
      | none => rfl
      | some qe =>
        obtain ⟨q, e'⟩ := qe
        obtain ⟨hq, hqm⟩ := longestMatch_mem s ps q e' hl
        have := hp q hq s e e' hm hqm
        simp only
        rw [if_neg (by omega)]

/-! ## A source extended by a further line -/

theorem takeWhile_append_stop (p : Char → Bool) (t r : List Char) (x : Char)
    (hx : p x = false) : (t ++ x :: r).takeWhile p = t.takeWhile p := by
  induction t with
  | nil => simp [List.takeWhile, hx]
  | cons a t ih =>
    simp only [List.cons_append, List.takeWhile]
    cases p a with
    | true => exact congrArg (a :: ·) ih
    | false => rfl

theorem takeWhile_append_of_mem (p : Char → Bool) (t r : List Char)
    (h : ∃ x ∈ t, p x = false) : (t ++ r).takeWhile p = t.takeWhile p := by
  induction t with
  | nil => obtain ⟨x, hx, -⟩ := h; simp at hx
  | cons a t ih =>
    simp only [List.cons_append, List.takeWhile]
    cases ha : p a with
    | false => rfl
    | true =>
      refine congrArg (a :: ·) (ih ?_)
      obtain ⟨x, hx, hpx⟩ := h
      rcases List.mem_cons.mp hx with rfl | hx'
      · rw [ha] at hpx; cases hpx
      · exact ⟨x, hx', hpx⟩

theorem dropWhile_append_stop (p : Char → Bool) (t r : List Char) (x : Char)
    (hx : p x = false) : (t ++ x :: r).dropWhile p = t.dropWhile p ++ x :: r := by
  induction t with
  | nil => simp [List.dropWhile, hx]
  | cons a t ih =>
    simp only [List.cons_append, List.dropWhile]
    cases p a with
    | true => exact ih
    | false => rfl

theorem dropWhile_append_dropWhile (p : Char → Bool) (s r : List Char) :
    (s ++ r).dropWhile p = (s.dropWhile p ++ r).dropWhile p := by
  induction s with
  | nil => rfl
  | cons a t ih =>
    simp only [List.cons_append, List.dropWhile]
    cases ha : p a with
    | true => simp only; exact ih
    | false => simp [List.dropWhile, ha]

theorem numberLen_extend (s b : List Char) :
    numberLen (s ++ '\n' :: b) = numberLen s := by
  have hnl : digit '\n' = false := by decide
  unfold numberLen
  rw [dropWhile_append_stop digit s b '\n' hnl, takeWhile_append_stop digit s b '\n' hnl]
  cases hr : s.dropWhile digit with
  | nil => rfl
  | cons z r =>
    by_cases hz : z = '.'
    · subst hz
      cases r with
      | nil => simp [hnl]
      | cons x y =>
        simp only [List.cons_append]
        rw [takeWhile_append_stop digit y b '\n' hnl]
    · simp only [List.cons_append]
      split
      · rename_i x y heq
        simp only [List.cons.injEq] at heq
        exact absurd heq.1 hz
      · split
        · rename_i x y heq
          simp only [List.cons.injEq] at heq
          exact absurd heq.1 hz
        · rfl

theorem lit_extend (v s b : List Char) (hv : '\n' ∉ v) :
    (Regex.lit v).matchLen (s ++ '\n' :: b) = (Regex.lit v).matchLen s := by
  rw [lit_closed, lit_closed]
  have : v.isPrefixOf (s ++ '\n' :: b) = v.isPrefixOf s := by
    induction v generalizing s with
    | nil => simp
    | cons a l ih =>
      cases s with
      | nil =>
        have : (a == '\n') = false := by
          simp only [beq_eq_false_iff_ne, ne_eq]
          rintro rfl
          exact hv (List.mem_cons_self _ _)
        simp [List.isPrefixOf, this]
      | cons c t =>
        simp only [List.cons_append, List.isPrefixOf]
        exact congrArg (fun z => (a == c) && z) (ih t (fun h => hv (List.mem_cons_of_mem _ h)))
  rw [this]

theorem firstMatch_congr (s1 s2 : List Char) :
    ∀ ps : List regexPattern,
      (∀ p ∈ ps, p.regex.matchLen s1 = p.regex.matchLen s2) →
      firstMatch s1 ps = firstMatch s2 ps := by
  intro ps
  induction ps with
  | nil => intro _; rfl
  | cons p ps ih =>
    intro h
    simp only [firstMatch]
    rw [h p (List.mem_cons_self _ _), ih (fun q hq => h q (List.mem_cons_of_mem _ hq))]

theorem fixed_no_newline : ∀ kv ∈ fixedSymbols, '\n' ∉ kv.2 := by decide

/-- One step of the run on an extended source, when the first match and what
it emits are those of the unextended one. -/
theorem extend_step (rw : List Char → Option TokenKind) (s ext : List Char)
    (p : regexPattern) (e : Nat) (X : List Token) (hle : e ≤ s.length)
    (hf : firstMatch (s ++ ext) (patterns rw) = some (p, e))
    (hem : emitted p (s ++ ext) = emitted p s)
    (ih : Tokenize rw (s.drop e ++ ext) = .returned X) :
    Tokenize rw (s ++ ext) = .returned (emitted p s ++ X) := by
  have hne : s ++ ext ≠ [] := by
    intro h
    rw [h] at hf
    obtain ⟨hpos, hl, -, -⟩ := firstMatch_pos rw [] p e hf
    simp at hl
    omega
  rw [Tokenize_of_some rw _ hne p e hf, List.drop_append_of_le_length hle, ih, hem]
  rfl

theorem take_append_le (s ext : List Char) (e : Nat) (hle : e ≤ s.length) :
    (s ++ ext).take e = s.take e := List.take_append_of_le_length hle

theorem patterns_leadings (rw : List Char → Option TokenKind) :
    (patterns rw).map (fun p => p.regex.leading?) = leadings := rfl

theorem leadings_pairwise : leadings.Pairwise prefixFree := by decide

theorem leading_of_entry (rw : List Char → Option TokenKind) (i : Nat) (p : regexPattern)
    (A : List Char) (hp : (patterns rw)[i]? = some p) (hA : p.regex.leading? = some A) :
    leadings[i]? = some (some A) := by
  rw [← patterns_leadings rw, List.getElem?_map, hp]
  simp [hA]

/-- Of two entries with leading literals `A` and `B`, `A` a proper prefix of
`B`, the one of `B` comes strictly earlier. -/
theorem leading_order (rw : List Char → Option TokenKind) (i j : Nat) (p q : regexPattern)
    (A B : List Char) (hp : (patterns rw)[i]? = some p) (hq : (patterns rw)[j]? = some q)
    (hA : p.regex.leading? = some A) (hB : q.regex.leading? = some B)
    (hpre : A <+: B) (hne : A ≠ B) : j < i := by
  have hi := leading_of_entry rw i p A hp hA
  have hj := leading_of_entry rw j q B hq hB
  by_contra hlt
  have hij : i ≠ j := by
    rintro rfl
    rw [hi] at hj
    simp only [Option.some.injEq] at hj
    exact hne hj
  have hlt' : i < j := by omega
  obtain ⟨hi', hi2⟩ := List.getElem?_eq_some_iff.mp hi
  obtain ⟨hj', hj2⟩ := List.getElem?_eq_some_iff.mp hj
  have := (List.pairwise_iff_getElem.mp leadings_pairwise) i j hi' hj' hlt'
  rw [hi2, hj2] at this
  exact this A rfl B rfl ⟨List.isPrefixOf_iff_prefix.mpr hpre, hne⟩

/-- The pattern that `firstMatch` selects is an entry of the list before which
no entry matches. -/
theorem firstMatch_index (s : List Char) :
    ∀ (ps : List regexPattern) (p : regexPattern) (e : Nat),
      firstMatch s ps = some (p, e) →
      ∃ i : Nat, ps[i]? = some p ∧ p.regex.matchLen s = some e ∧
        ∀ (k : Nat) (q : regexPattern), k < i → ps[k]? = some q →
          q.regex.matchLen s = none := by
  intro ps
  induction ps with
  | nil => intro p e h; simp [firstMatch] at h
  | cons a ps ih =>
    intro p e h
    simp only [firstMatch] at h
    cases hm : a.regex.matchLen s with
    | some n =>
      simp only [hm, Option.some.injEq, Prod.mk.injEq] at h
      obtain ⟨rfl, rfl⟩ := h
      exact ⟨0, List.getElem?_cons_zero, hm, fun k _ hk _ => absurd hk (Nat.not_lt_zero k)⟩
    | none =>
      simp only [hm] at h
      obtain ⟨i, hi, hpm, hbefore⟩ := ih p e h
      refine ⟨i + 1, by rw [List.getElem?_cons_succ]; exact hi, hpm, ?_⟩
      intro k q hk hq
      cases k with
      | zero =>
        simp only [List.getElem?_cons_zero, Option.some.injEq] at hq
        rw [← hq]
        exact hm
      | succ k =>
        simp only [List.getElem?_cons_succ] at hq
        exact hbefore k q (by omega) hq

/-! ## The claims -/

/-- C1: on every source on which `Tokenize` returns, the returned sequence is
not empty and its last element is the token of kind `EOF` and value "EOF". -/
theorem Tokenize_ends_with_EOF (reservedWords : List Char → Option TokenKind)
    (source : List Char) (tokens : List Token)
    (h : Tokenize reservedWords source = .returned tokens) :
    tokens ≠ [] ∧ tokens.getLast? = some (NewToken .EOF "EOF".toList) := by
  obtain ⟨init, rfl⟩ := loop_returned_last reservedWords _ _ _ h
  constructor
  · simp
  · simp [eofToken]

theorem Tokenize_ends_with_EOF_witness :
    Tokenize sampleReserved "let x = 12.5;".toList
      = .returned [⟨.RESERVED 0, "let".toList⟩, ⟨.IDENTIFIER, "x".toList⟩,
          ⟨.ASSIGNMENT, "=".toList⟩, ⟨.NUMBER, "12.5".toList⟩, ⟨.SEMICOLON, ";".toList⟩,
          ⟨.EOF, "EOF".toList⟩] ∧
    [(⟨.RESERVED 0, "let".toList⟩ : Token), ⟨.IDENTIFIER, "x".toList⟩,
          ⟨.ASSIGNMENT, "=".toList⟩, ⟨.NUMBER, "12.5".toList⟩, ⟨.SEMICOLON, ";".toList⟩,
          ⟨.EOF, "EOF".toList⟩].getLast? = some (NewToken .EOF "EOF".toList) :=
  ⟨by decide, (Tokenize_ends_with_EOF sampleReserved "let x = 12.5;".toList _ (by decide)).2⟩

/-- C2: `Tokenize` terminates on every source, recognized or not.  In every
iteration of its loop in which a pattern fires, the handler returns normally,
leaves the source as it is and moves the cursor strictly forward and not
beyond the end, so `len(source) - pos` strictly decreases; hence the run never
needs more iterations than the source has characters: it returns or panics
with the fuel `len(source)`, and with any larger fuel does the same. -/
theorem Tokenize_terminates (reservedWords : List Char → Option TokenKind) :
    (∀ (lex : Lexer) (r : Except (List Char) Lexer),
      dispatch lex (patterns reservedWords) = some r →
        ∃ lex', r = .ok lex' ∧ lex'.source = lex.source ∧ lex.pos < lex'.pos ∧
          lex'.pos ≤ lex.source.length ∧
          lex'.source.length - lex'.pos < lex.source.length - lex.pos) ∧
    (∀ source : List Char,
      (Tokenize reservedWords source ≠ .outOfFuel) ∧
      ∀ fuel, source.length ≤ fuel →
        loop reservedWords fuel (CreateLexer source) = Tokenize reservedWords source) := by
  constructor
  · intro lex r hd
    rcases dispatch_spec reservedWords lex with ⟨-, hn⟩ | ⟨p, e, toks, -, hs, hpos, hin, -⟩
    · simp [hn] at hd
    · rw [hs] at hd
      simp only [Option.some.injEq] at hd
      subst hd
      refine ⟨_, rfl, rfl, ?_, hin, ?_⟩
      · simp only
        omega
      · simp only
        omega
  · intro source
    have h := loop_fuel reservedWords source.length (CreateLexer source) (by simp [CreateLexer])
    refine ⟨h.1, fun fuel hle => ?_⟩
    obtain ⟨more, rfl⟩ := Nat.exists_eq_add_of_le hle
    exact h.2 more

theorem Tokenize_terminates_witness :
    dispatch (CreateLexer "// a".toList) (patterns sampleReserved)
      = some (.ok ⟨[], "// a".toList, 4⟩) ∧
    (∃ lex', (Except.ok ⟨[], "// a".toList, 4⟩ : Except (List Char) Lexer) = .ok lex' ∧
      lex'.source = (CreateLexer "// a".toList).source ∧
      (CreateLexer "// a".toList).pos < lex'.pos ∧
      lex'.pos ≤ (CreateLexer "// a".toList).source.length ∧
      lex'.source.length - lex'.pos
        < (CreateLexer "// a".toList).source.length - (CreateLexer "// a".toList).pos) ∧
    Tokenize sampleReserved "a @ b".toList ≠ .outOfFuel :=
  ⟨rfl, (Tokenize_terminates sampleReserved).1 _ _ rfl,
    ((Tokenize_terminates sampleReserved).2 "a @ b".toList).1⟩

/-- C3: on every source on which `Tokenize` returns, the pieces of text
consumed by the iterations of its loop (`source[pos_before:pos_after]` for each
handler invocation, those of the skip handler included), concatenated in order,
are the source, and each piece is the text that the fired pattern (the first
one of the table matching at the cursor) matched there. -/
theorem consumed_reconstructs_source (reservedWords : List Char → Option TokenKind)
    (source : List Char) (tokens : List Token)
    (h : Tokenize reservedWords source = .returned tokens) :
    (consumed reservedWords source.length (CreateLexer source)).flatten = source ∧
    (consumed reservedWords source.length (CreateLexer source)).map some
      = matchedTexts reservedWords source.length (CreateLexer source) := by
  obtain ⟨h1, h2, h3⟩ := consumed_eq reservedWords source.length (CreateLexer source)
  constructor
  · have := h3 (by simp [CreateLexer]) tokens h
    simpa [remainder, CreateLexer] using this
  · rw [h1]
    generalize matchedTexts reservedWords source.length (CreateLexer source) = l at h2
    induction l with
    | nil => rfl
    | cons x xs ih =>
      simp only [List.all_cons, Bool.and_eq_true] at h2
      cases x with
      | none => simp at h2
      | some v => simp [ih h2.2]

theorem consumed_reconstructs_source_witness :
    Tokenize sampleReserved "  // c\n42+x".toList
      = .returned [⟨.NUMBER, "42".toList⟩, ⟨.PLUS, "+".toList⟩, ⟨.IDENTIFIER, "x".toList⟩,
          ⟨.EOF, "EOF".toList⟩] ∧
    consumed sampleReserved 11 (CreateLexer "  // c\n42+x".toList)
      = ["  ".toList, "// c".toList, "\n".toList, "42".toList, "+".toList, "x".toList] ∧
    (consumed sampleReserved "  // c\n42+x".toList.length
        (CreateLexer "  // c\n42+x".toList)).flatten = "  // c\n42+x".toList :=
  ⟨by decide, by decide,
    (consumed_reconstructs_source sampleReserved "  // c\n42+x".toList
      [⟨.NUMBER, "42".toList⟩, ⟨.PLUS, "+".toList⟩, ⟨.IDENTIFIER, "x".toList⟩,
        ⟨.EOF, "EOF".toList⟩] (by decide)).1⟩

/-- C4: whenever `Tokenize` fails on a source it returns no token sequence, and
its message is "lexer::Error -> unrecognized token near " followed by `r` and a
newline, where `r` is the remaining text at a cursor the scan reaches: a
non-empty suffix of the source at which no pattern of the table has its
leftmost match at offset 0.  Conversely, when the scan reaches a cursor before
the end of input at which no pattern of the table matches at offset 0,
`Tokenize` fails, with that remainder in its message. -/
theorem Tokenize_fails_iff_unrecognized (reservedWords : List Char → Option TokenKind)
    (source : List Char) :
    (∀ msg, Tokenize reservedWords source = .panicked msg →
      (∀ tokens, Tokenize reservedWords source ≠ .returned tokens) ∧
      ∃ r, msg = "lexer::Error -> unrecognized token near ".toList ++ r ++ "\n".toList ∧
        r ≠ [] ∧ r <:+ source ∧
        (∃ n lex, scan reservedWords n (CreateLexer source) = some lex ∧ lex.remainder = r) ∧
        ∀ p ∈ patterns reservedWords, ∀ e, FindStringIndex p.regex r ≠ some (0, e)) ∧
    (∀ n lex, scan reservedWords n (CreateLexer source) = some lex → lex.at_eof = false →
      (∀ p ∈ patterns reservedWords, ∀ e, FindStringIndex p.regex lex.remainder ≠ some (0, e)) →
      Tokenize reservedWords source
        = .panicked ("lexer::Error -> unrecognized token near ".toList ++ lex.remainder
            ++ "\n".toList)) := by
  constructor
  · intro msg h
    refine ⟨fun tokens ht => by rw [h] at ht; simp at ht, ?_⟩
    obtain ⟨n, lex, hs, hsrc, hpos, hmsg, hf⟩ := loop_panicked reservedWords _ _ _ h
    refine ⟨lex.remainder, hmsg, ?_, ?_, ⟨n, lex, hs, rfl⟩, ?_⟩
    · intro hnil
      have := length_remainder lex
      rw [hnil] at this
      simp only [List.length_nil] at this
      omega
    · have : lex.source = source := hsrc
      rw [remainder, this]
      exact List.drop_suffix _ _
    · intro p hp e he
      rw [FindStringIndex_zero] at he
      have := (firstMatch_none _ _).mp hf p hp
      simp [this] at he
  · intro n lex hs he hno
    have hf : firstMatch lex.remainder (patterns reservedWords) = none := by
      rw [firstMatch_none]
      intro p hp
      cases hm : p.regex.matchLen lex.remainder with
      | none => rfl
      | some e => exact absurd ((FindStringIndex_zero _ _ _).mpr hm) (hno p hp e)
    have h1 := scan_loop reservedWords n _ _ hs (source.length + 1)
    rw [loop_stuck reservedWords _ lex he hf] at h1
    have h2 := (loop_fuel reservedWords source.length (CreateLexer source)
      (by simp [CreateLexer])).2 (n + 1)
    rw [show source.length + (n + 1) = n + (source.length + 1) by omega, h1] at h2
    exact h2.symm

theorem Tokenize_fails_iff_unrecognized_witness :
    Tokenize sampleReserved "a @ b".toList
      = .panicked "lexer::Error -> unrecognized token near @ b\n".toList ∧
    (∀ tokens, Tokenize sampleReserved "a @ b".toList ≠ .returned tokens) ∧
    ∃ r, "lexer::Error -> unrecognized token near @ b\n".toList
        = "lexer::Error -> unrecognized token near ".toList ++ r ++ "\n".toList ∧
      r ≠ [] ∧ r <:+ "a @ b".toList ∧
      (∃ n lex, scan sampleReserved n (CreateLexer "a @ b".toList) = some lex ∧
        lex.remainder = r) ∧
      ∀ p ∈ patterns sampleReserved, ∀ e, FindStringIndex p.regex r ≠ some (0, e) :=
  ⟨by decide,
    (Tokenize_fails_iff_unrecognized sampleReserved "a @ b".toList).1 _ (by decide)⟩

/-- C5: the fixed-symbol entries of the pattern table are the 31 entries after
the first five, each a literal spelling `v` with the handler
`defaultHandler k v`; and for each of them `Tokenize(v)` returns exactly
`[Token(k, v), Token(EOF, "EOF")]`.  In particular "==" gives one `EQUALS`
token, "=" one `ASSIGNMENT` token and "<=" one `LESS_EQUALS` token. -/
theorem Tokenize_fixed_symbol (reservedWords : List Char → Option TokenKind) :
    (patterns reservedWords).drop 5
      = fixedSymbols.map (fun kv => ⟨.lit kv.2, defaultHandler kv.1 kv.2⟩) ∧
    fixedSymbols.length = 31 ∧
    (∀ kv ∈ fixedSymbols,
      Tokenize reservedWords kv.2
        = .returned [NewToken kv.1 kv.2, NewToken .EOF "EOF".toList]) ∧
    Tokenize reservedWords "==".toList
      = .returned [NewToken .EQUALS "==".toList, NewToken .EOF "EOF".toList] ∧
    Tokenize reservedWords "=".toList
      = .returned [NewToken .ASSIGNMENT "=".toList, NewToken .EOF "EOF".toList] ∧
    Tokenize reservedWords "<=".toList
      = .returned [NewToken .LESS_EQUALS "<=".toList, NewToken .EOF "EOF".toList] := by
  refine ⟨rfl, rfl, ?_, rfl, rfl, rfl⟩
  intro kv hkv
  simp only [fixedSymbols] at hkv
  fin_cases hkv <;> rfl

/-- C6: for every identifier-shaped text `w = c :: rest` (`c` an ASCII letter
or underscore, every character of `rest` an ASCII letter, digit or underscore),
`Tokenize(w)` returns exactly `[Token(k, w), Token(EOF, "EOF")]`, where `k` is
the kind the reserved-word table gives `w`, and `IDENTIFIER` when `w` is not in
the table; in particular a text that is not itself reserved, such as a
reserved spelling extended by identifier characters, is one `IDENTIFIER` token
holding the whole text. -/
theorem Tokenize_identifier (reservedWords : List Char → Option TokenKind)
    (c : Char) (rest : List Char) (hc : asciiLetter c ∨ c = '_')
    (hrest : ∀ x ∈ rest, asciiLetter x ∨ asciiDigit x ∨ x = '_') :
    Tokenize reservedWords (c :: rest)
      = .returned [NewToken ((reservedWords (c :: rest)).getD .IDENTIFIER) (c :: rest),
          NewToken .EOF "EOF".toList] ∧
    (reservedWords (c :: rest) = none →
      Tokenize reservedWords (c :: rest)
        = .returned [NewToken .IDENTIFIER (c :: rest), NewToken .EOF "EOF".toList]) := by
  have hm := ident_matchLen c rest [] (identStart_of_ascii c hc)
    (fun x hx => identChar_of_ascii x (hrest x hx)) (head?_nil_imp _)
  rw [List.append_nil] at hm
  have hf : firstMatch (CreateLexer (c :: rest)).remainder (patterns reservedWords)
      = some (⟨.cat (.cls identStart) (.star (.cls identChar)), symbolHandler reservedWords⟩,
          rest.length + 1) := by
    rw [remainder_CreateLexer]
    simp only [patterns, firstMatch, hm]
  have hfs := FindString_of_matchLen _ _ _ hm
  have hh : symbolHandler reservedWords (CreateLexer (c :: rest))
      (.cat (.cls identStart) (.star (.cls identChar)))
      = .ok ⟨[NewToken ((reservedWords (c :: rest)).getD .IDENTIFIER) (c :: rest)], c :: rest,
          rest.length + 1⟩ := by
    simp only [symbolHandler, remainder_CreateLexer, hfs.1]
    have ht : List.take (rest.length + 1) (c :: rest) = c :: rest := by simp
    rw [ht]
    cases reservedWords (c :: rest) <;> simp [push, advanceN, CreateLexer]
  have h1 : Tokenize reservedWords (c :: rest)
      = .returned [NewToken ((reservedWords (c :: rest)).getD .IDENTIFIER) (c :: rest),
          NewToken .EOF "EOF".toList] := by
    unfold Tokenize
    rw [List.length_cons, loop_fire reservedWords _ _ _ _ _ (by simp [at_eof, CreateLexer]) hf hh,
      loop_at_eof _ _ _ (by simp [at_eof])]
    rfl
  refine ⟨h1, fun hn => ?_⟩
  rw [h1, hn]
  rfl

theorem Tokenize_identifier_witness :
    Tokenize sampleReserved "letx".toList
      = .returned [NewToken .IDENTIFIER "letx".toList, NewToken .EOF "EOF".toList] ∧
    Tokenize sampleReserved "let".toList
      = .returned [NewToken (.RESERVED 0) "let".toList, NewToken .EOF "EOF".toList] :=
  ⟨(Tokenize_identifier sampleReserved 'l' "etx".toList (by decide) (by decide)).2 (by decide),
    (Tokenize_identifier sampleReserved 'l' "et".toList (by decide) (by decide)).1⟩

/-- C7: for every non-empty run `d` of ASCII digits, `Tokenize(d)` returns
exactly `[Token(NUMBER, d), Token(EOF, "EOF")]`, and for every non-empty run `f`
of ASCII digits `Tokenize(d ++ "." ++ f)` returns exactly
`[Token(NUMBER, d ++ "." ++ f), Token(EOF, "EOF")]`. -/
theorem Tokenize_number (reservedWords : List Char → Option TokenKind)
    (d f : List Char) (hd : d ≠ []) (hdd : ∀ c ∈ d, asciiDigit c)
    (hff : ∀ c ∈ f, asciiDigit c) :
    Tokenize reservedWords d
      = .returned [NewToken .NUMBER d, NewToken .EOF "EOF".toList] ∧
    (f ≠ [] →
      Tokenize reservedWords (d ++ ".".toList ++ f)
        = .returned [NewToken .NUMBER (d ++ ".".toList ++ f), NewToken .EOF "EOF".toList]) := by
  have hdd' : ∀ c ∈ d, digit c = true := fun c hc => digit_of_ascii c (hdd c hc)
  have hff' : ∀ c ∈ f, digit c = true := fun c hc => digit_of_ascii c (hff c hc)
  obtain ⟨c0, d', rfl⟩ := List.exists_cons_of_ne_nil hd
  have hc0 : identStart c0 = false := identStart_of_digit c0 (hdd' c0 (List.mem_cons_self _ _))
  -- one step on a source that the number pattern matches whole
  have key : ∀ s : List Char, s = c0 :: s.tail →
      (Regex.cat (.plus (.cls digit))
        (.quest (.cat (.lit ['.']) (.plus (.cls digit))))).matchLen s = some s.length →
      Tokenize reservedWords s
        = .returned [NewToken .NUMBER s, NewToken .EOF "EOF".toList] := by
    intro s hs hm
    have hne : s.length = s.tail.length + 1 := by rw [hs]; simp
    have hf : firstMatch (CreateLexer s).remainder (patterns reservedWords)
        = some (⟨.cat (.plus (.cls digit))
            (.quest (.cat (.lit ['.']) (.plus (.cls digit)))), numberHandler⟩, s.length) := by
      rw [remainder_CreateLexer]
      have h1 := ident_matchLen_none c0 s.tail hc0
      rw [← hs] at h1
      simp only [patterns, firstMatch, h1, hm]
    have hh := numberHandler_ok (CreateLexer s) _ s.length
      (by rw [remainder_CreateLexer]; exact hm)
    rw [Tokenize_eq_loop reservedWords s (s.length + 1) (by omega),
      loop_fire reservedWords _ _ _ _ _
        (by simp only [at_eof, CreateLexer, decide_eq_false_iff_not]; omega) hf hh,
      loop_at_eof _ _ _ (by simp [at_eof, CreateLexer])]
    simp [remainder, CreateLexer, eofToken]
  constructor
  · apply key _ rfl
    have := number_matchLen_int (c0 :: d') [] hd hdd' (head?_nil_imp _)
      (by intro r' hr'; simp at hr')
    simpa using this
  · intro hf
    apply key _ rfl
    have := number_matchLen_frac (c0 :: d') f [] hd hdd' hf hff' (head?_nil_imp _)
    simp only [List.append_nil] at this
    have e1 : c0 :: d' ++ ".".toList ++ f = c0 :: d' ++ '.' :: f := by simp
    rw [e1, this]
    simp
    omega

theorem Tokenize_number_witness :
    Tokenize sampleReserved "12".toList
      = .returned [NewToken .NUMBER "12".toList, NewToken .EOF "EOF".toList] ∧
    Tokenize sampleReserved "12.5".toList
      = .returned [NewToken .NUMBER "12.5".toList, NewToken .EOF "EOF".toList] :=
  ⟨(Tokenize_number sampleReserved "12".toList "5".toList (by decide) (by decide)
      (by decide)).1,
    (Tokenize_number sampleReserved "12".toList "5".toList (by decide) (by decide)
      (by decide)).2 (by decide)⟩

/-- C8: a trailing dot is not part of a number: for every non-empty run `d`
of ASCII digits, `Tokenize(d ++ ".")` returns exactly
`[Token(NUMBER, d), Token(DOT, "."), Token(EOF, "EOF")]`, and the numeric
recognizer (the second entry of the table) matches just `d` there: it needs a
digit after the dot. -/
theorem Tokenize_trailing_dot (reservedWords : List Char → Option TokenKind)
    (d : List Char) (hd : d ≠ []) (hdd : ∀ c ∈ d, asciiDigit c) :
    Tokenize reservedWords (d ++ ".".toList)
      = .returned [NewToken .NUMBER d, NewToken .DOT ".".toList, NewToken .EOF "EOF".toList] ∧
    (patterns reservedWords)[1]?.map (fun p => FindStringIndex p.regex (d ++ ".".toList))
      = some (some (0, d.length)) := by
  have hdd' : ∀ c ∈ d, digit c = true := fun c hc => digit_of_ascii c (hdd c hc)
  have hm := number_matchLen_int d ['.'] hd hdd'
    (by intro x hx; simp only [List.head?_cons, Option.some.injEq] at hx; subst hx; decide)
    (by intro r' hr' x hx
        simp only [List.cons.injEq, true_and] at hr'
        subst hr'
        simp at hx)
  have hs : d ++ ".".toList = d ++ ['.'] := rfl
  refine ⟨?_, ?_⟩
  · obtain ⟨c0, d', rfl⟩ := List.exists_cons_of_ne_nil hd
    have hc0 : identStart c0 = false :=
      identStart_of_digit c0 (hdd' c0 (List.mem_cons_self _ _))
    rw [hs]
    have hf : firstMatch (CreateLexer (c0 :: d' ++ ['.'])).remainder (patterns reservedWords)
        = some (⟨.cat (.plus (.cls digit))
            (.quest (.cat (.lit ['.']) (.plus (.cls digit)))), numberHandler⟩,
            (c0 :: d').length) := by
      rw [remainder_CreateLexer]
      have h1 := ident_matchLen_none c0 (d' ++ ['.']) hc0
      simp only [List.cons_append] at hm ⊢
      simp only [patterns, firstMatch, h1, hm]
    have hh := numberHandler_ok (CreateLexer (c0 :: d' ++ ['.'])) _ (c0 :: d').length
      (by rw [remainder_CreateLexer]; exact hm)
    have hrem : (⟨(CreateLexer (c0 :: d' ++ ['.'])).Tokens
          ++ [NewToken .NUMBER (List.take (c0 :: d').length
                (CreateLexer (c0 :: d' ++ ['.'])).remainder)],
        (CreateLexer (c0 :: d' ++ ['.'])).source,
        (CreateLexer (c0 :: d' ++ ['.'])).pos + (c0 :: d').length⟩ : Lexer)
        = ⟨[NewToken .NUMBER (c0 :: d')], c0 :: d' ++ ['.'], (c0 :: d').length⟩ := by
      simp [remainder, CreateLexer]
    rw [hrem] at hh
    have hf2 : firstMatch
        (⟨[NewToken .NUMBER (c0 :: d')], c0 :: d' ++ ['.'], (c0 :: d').length⟩ : Lexer).remainder
        (patterns reservedWords)
        = some (⟨.lit ['.'], defaultHandler .DOT ['.']⟩, 1) := by
      have : (⟨[NewToken .NUMBER (c0 :: d')], c0 :: d' ++ ['.'],
          (c0 :: d').length⟩ : Lexer).remainder = ['.'] := by
        simp [remainder]
      rw [this]
      rfl
    rw [Tokenize_eq_loop reservedWords _ ((c0 :: d' ++ ['.']).length + 1) (by omega),
      List.length_append, List.length_singleton,
      loop_fire reservedWords _ _ _ _ _ (by simp [at_eof, CreateLexer]) hf hh,
      loop_fire reservedWords _ _ _ _ _ (by simp [at_eof]) hf2 rfl,
      loop_at_eof _ _ _ (by simp [at_eof, advanceN, push])]
    rfl
  · rw [hs]
    have := (FindStringIndex_zero _ _ _).mpr hm
    simp [patterns, this]

theorem Tokenize_trailing_dot_witness :
    Tokenize sampleReserved "12.".toList
      = .returned [NewToken .NUMBER "12".toList, NewToken .DOT ".".toList,
          NewToken .EOF "EOF".toList] :=
  (Tokenize_trailing_dot sampleReserved "12".toList (by decide) (by decide)).1

/-- C9: for every text `t` without a double quote (empty or with newlines
as it may be), tokenizing `t` between two double quotes returns exactly
`[Token(STRING, q), Token(EOF, "EOF")]`, where `q` is the whole quoted text,
both quotes included. -/
theorem Tokenize_string (reservedWords : List Char → Option TokenKind)
    (t : List Char) (ht : '"' ∉ t) :
    Tokenize reservedWords ("\"".toList ++ t ++ "\"".toList)
      = .returned [NewToken .STRING ("\"".toList ++ t ++ "\"".toList),
          NewToken .EOF "EOF".toList] := by
  have ht' : ∀ c ∈ t, notQuote c = true := by
    intro c hc
    simp only [notQuote, bne_iff_ne, ne_eq]
    rintro rfl
    exact ht hc
  have hs : "\"".toList ++ t ++ "\"".toList = '"' :: (t ++ ['"']) := rfl
  rw [hs]
  have hm := string_matchLen t [] ht'
  have hlen : ('"' :: (t ++ ['"'])).length = t.length + 2 := by simp
  have hf : firstMatch (CreateLexer ('"' :: (t ++ ['"']))).remainder (patterns reservedWords)
      = some (⟨.cat (.lit ['"']) (.cat (.star (.cls notQuote)) (.lit ['"'])), stringHandler⟩,
          t.length + 2) := by
    rw [remainder_CreateLexer]
    have h1 := ident_matchLen_none '"' (t ++ ['"']) (by decide)
    have h2 := number_matchLen_none '"' (t ++ ['"']) (by decide)
    simp only [patterns, firstMatch, h1, h2, hm]
  have hh := stringHandler_ok (CreateLexer ('"' :: (t ++ ['"']))) _ (t.length + 2)
    (by rw [remainder_CreateLexer]; exact hm)
  rw [Tokenize_eq_loop reservedWords _ (t.length + 2 + 1) (by omega),
    loop_fire reservedWords _ _ _ _ _ (by simp [at_eof, CreateLexer]) hf hh,
    loop_at_eof _ _ _ (by simp [at_eof, CreateLexer])]
  have htake : List.take (t.length + 1) (t ++ ['"']) = t ++ ['"'] :=
    List.take_of_length_le (by simp)
  simp [remainder, CreateLexer, eofToken, htake]

theorem Tokenize_string_witness :
    Tokenize sampleReserved "\"abc\"".toList
      = .returned [NewToken .STRING "\"abc\"".toList, NewToken .EOF "EOF".toList] :=
  Tokenize_string sampleReserved "abc".toList (by decide)

/-- C10: an unterminated string is unrecognized input: for every text `t`
without a double quote, `Tokenize` of a double quote followed by `t` panics,
the reported remaining text is the whole source, and no pattern of the table
has its leftmost match at offset 0 of the source. -/
theorem Tokenize_unterminated_string (reservedWords : List Char → Option TokenKind)
    (t : List Char) (ht : '"' ∉ t) :
    Tokenize reservedWords ("\"".toList ++ t)
      = .panicked ("lexer::Error -> unrecognized token near ".toList
          ++ ("\"".toList ++ t) ++ "\n".toList) ∧
    ∀ p ∈ patterns reservedWords, ∀ e,
      FindStringIndex p.regex ("\"".toList ++ t) ≠ some (0, e) := by
  have hs : "\"".toList ++ t = '"' :: t := rfl
  rw [hs]
  have hf := firstMatch_quote_none reservedWords t ht
  constructor
  · rw [Tokenize_eq_loop reservedWords _ (t.length + 1) (by simp),
      loop_stuck reservedWords _ _ (by simp [at_eof, CreateLexer])
        (by rw [remainder_CreateLexer]; exact hf), remainder_CreateLexer]
    rfl
  · intro p hp e he
    rw [FindStringIndex_zero] at he
    have := (firstMatch_none _ _).mp hf p hp
    simp [this] at he

theorem Tokenize_unterminated_string_witness :
    Tokenize sampleReserved "\"abc".toList
      = .panicked "lexer::Error -> unrecognized token near \"abc\n".toList :=
  (Tokenize_unterminated_string sampleReserved "abc".toList (by decide)).1

/-- C16: in the table built by `CreateLexer`, of every two entries whose
recognizers are literal spellings `A` and `B` with `A` a proper prefix of `B`,
the entry of the longer spelling `B` comes strictly earlier; likewise every
entry whose recognizer begins with the literal "//" (a line-comment pattern)
comes strictly earlier than every entry whose recognizer is the literal "/";
and the table has such entries: the line-comment pattern at index 3 and "/" at
index 33. -/
theorem longer_spelling_registered_first (reservedWords : List Char → Option TokenKind) :
    (∀ (i j : Nat) (p q : regexPattern) (A B : List Char),
      (patterns reservedWords)[i]? = some p → (patterns reservedWords)[j]? = some q →
      p.regex = .lit A → q.regex = .lit B → A <+: B → A ≠ B → j < i) ∧
    (∀ (i j : Nat) (p q : regexPattern) (r : Regex),
      (patterns reservedWords)[i]? = some p → (patterns reservedWords)[j]? = some q →
      p.regex = .cat (.lit "//".toList) r → q.regex = .lit "/".toList → i < j) ∧
    (∃ p q : regexPattern,
      (patterns reservedWords)[3]? = some p ∧ (patterns reservedWords)[33]? = some q ∧
      p.regex = .cat (.lit "//".toList) (.star (.cls anyNotNL)) ∧
      q.regex = .lit "/".toList) := by
  refine ⟨?_, ?_, ?_⟩
  · intro i j p q A B hp hq hA hB hpre hne
    exact leading_order reservedWords i j p q A B hp hq (by rw [hA]; rfl) (by rw [hB]; rfl)
      hpre hne
  · intro i j p q r hp hq hc hs
    exact leading_order reservedWords j i q p "/".toList "//".toList hq hp
      (by rw [hs]; rfl) (by rw [hc]; rfl) (by decide) (by decide)
  · exact ⟨_, _, rfl, rfl, rfl, rfl⟩

theorem longer_spelling_registered_first_witness :
    (patterns sampleReserved)[13]?.map (fun p => p.regex.literal?) = some (some "=".toList) ∧
    (patterns sampleReserved)[11]?.map (fun p => p.regex.literal?) = some (some "==".toList) ∧
    11 < 13 ∧ 3 < 33 :=
  ⟨rfl, rfl,
    (longer_spelling_registered_first sampleReserved).1 13 11 _ _ "=".toList "==".toList
      rfl rfl rfl rfl (by decide) (by decide),
    (longer_spelling_registered_first sampleReserved).2.1 3 33 _ _ _ rfl rfl rfl rfl⟩

/-- C13: `Tokenize("")` returns exactly the one-element sequence
`[Token(EOF, "EOF")]`. -/
theorem Tokenize_empty (reservedWords : List Char → Option TokenKind) :
    Tokenize reservedWords "".toList = .returned [NewToken .EOF "EOF".toList] := rfl

/-- C12: an unrecognized character is fatal: for every text `s`,
`Tokenize("@" ++ s)` panics, reporting the whole source, and returns no token
sequence; no pattern of the table has its leftmost match at offset 0 there,
whatever `s` holds. -/
theorem Tokenize_unrecognized_char (reservedWords : List Char → Option TokenKind)
    (s : List Char) :
    Tokenize reservedWords ("@".toList ++ s)
      = .panicked ("lexer::Error -> unrecognized token near ".toList
          ++ ("@".toList ++ s) ++ "\n".toList) ∧
    (∀ tokens, Tokenize reservedWords ("@".toList ++ s) ≠ .returned tokens) ∧
    ∀ p ∈ patterns reservedWords, ∀ e,
      FindStringIndex p.regex ("@".toList ++ s) ≠ some (0, e) := by
  have hs : "@".toList ++ s = '@' :: s := rfl
  rw [hs]
  have hf := firstMatch_atSign_none reservedWords s
  have h1 : Tokenize reservedWords ('@' :: s)
      = .panicked ("lexer::Error -> unrecognized token near ".toList
          ++ ('@' :: s) ++ "\n".toList) := by
    rw [Tokenize_eq_loop reservedWords _ (s.length + 1) (by simp),
      loop_stuck reservedWords _ _ (by simp [at_eof, CreateLexer])
        (by rw [remainder_CreateLexer]; exact hf), remainder_CreateLexer]
    rfl
  refine ⟨h1, fun tokens ht => ?_, ?_⟩
  · rw [h1] at ht
    simp at ht
  · intro p hp e he
    rw [FindStringIndex_zero] at he
    have := (firstMatch_none _ _).mp hf p hp
    simp [this] at he

theorem Tokenize_unrecognized_char_witness :
    FindStringIndex (.cat (.cls identStart) (.star (.cls identChar))) "@ab".toList
      = some (1, 3) ∧
    Tokenize sampleReserved "@ab".toList
      = .panicked "lexer::Error -> unrecognized token near @ab\n".toList :=
  ⟨by decide, (Tokenize_unrecognized_char sampleReserved "ab".toList).1⟩

/-- C17: in every run of `Tokenize` the cursor starts at 0 and, at every
iteration the loop reaches (the rest of the run of `Tokenize` is the loop
continued from there), the source is unchanged and the cursor is within
`0..len(source)`, so the remainder `source[pos:]` is within bounds; the cursor
never decreases from then on; and when the inner loop runs a handler there, it
is the handler of the first entry of the table whose leftmost match starts at
offset 0 of the remainder, and it moves the cursor by exactly the length of
that entry's match, which lies within the remainder, leaving the cursor again
within `0..len(source)`. -/
theorem cursor_within_source (reservedWords : List Char → Option TokenKind)
    (source : List Char) :
    (CreateLexer source).pos = 0 ∧
    ∀ n lex, scan reservedWords n (CreateLexer source) = some lex →
      Tokenize reservedWords source = loop reservedWords source.length lex ∧
      lex.source = source ∧ lex.pos ≤ source.length ∧
      (∀ m lex', scan reservedWords m lex = some lex' → lex.pos ≤ lex'.pos) ∧
      (∀ r, dispatch lex (patterns reservedWords) = some r →
        ∃ (i : Nat) (p : regexPattern) (e : Nat) (lex' : Lexer),
          (patterns reservedWords)[i]? = some p ∧
          FindStringIndex p.regex lex.remainder = some (0, e) ∧
          (∀ (k : Nat) (q : regexPattern), k < i → (patterns reservedWords)[k]? = some q →
            ∀ x, FindStringIndex q.regex lex.remainder ≠ some (0, x)) ∧
          r = p.handler lex p.regex ∧
          e ≤ lex.remainder.length ∧ r = .ok lex' ∧ lex'.source = source ∧
          lex'.pos = lex.pos + e ∧ lex'.pos ≤ source.length) := by
  refine ⟨rfl, fun n lex h => ?_⟩
  obtain ⟨h1, -, h3⟩ := scan_invariant reservedWords n _ _ h
  have hsrc : lex.source = source := h1
  have hle : lex.pos ≤ source.length := by
    have := h3 (by simp [CreateLexer])
    rwa [hsrc] at this
  have hrun : Tokenize reservedWords source = loop reservedWords source.length lex := by
    have e1 := scan_loop reservedWords n _ _ h source.length
    have e2 := (loop_fuel reservedWords source.length (CreateLexer source)
      (by simp [CreateLexer])).2 n
    rw [Nat.add_comm] at e2
    rw [← e1, e2]
    rfl
  refine ⟨hrun, hsrc, hle, fun m lex' hm => (scan_invariant reservedWords m _ _ hm).2.1, ?_⟩
  intro r hd
  rcases dispatch_spec reservedWords lex with ⟨-, hn⟩ | ⟨p, e, toks, hf, hs, hpos, hin, -⟩
  · simp [hn] at hd
  · have hr : r = p.handler lex p.regex := by
      rw [dispatch_eq_firstMatch, hf] at hd
      simp only [Option.map_some', Option.some.injEq] at hd
      exact hd.symm
    rw [hs] at hd
    simp only [Option.some.injEq] at hd
    obtain ⟨i, hi, hm, hbefore⟩ := firstMatch_index _ _ _ _ hf
    refine ⟨i, p, e, _, hi, (FindStringIndex_zero _ _ _).mpr hm, ?_, hr, ?_, hd.symm, hsrc,
      rfl, ?_⟩
    · intro k q hk hq x hx
      rw [FindStringIndex_zero, hbefore k q hk hq] at hx
      cases hx
    · rw [length_remainder]
      omega
    · simp only
      rw [← hsrc]
      exact hin

theorem cursor_within_source_witness :
    scan sampleReserved 2 (CreateLexer "ab  12".toList)
      = some ⟨[⟨.IDENTIFIER, "ab".toList⟩], "ab  12".toList, 4⟩ ∧
    (⟨[⟨.IDENTIFIER, "ab".toList⟩], "ab  12".toList, 4⟩ : Lexer).pos ≤ "ab  12".toList.length :=
  ⟨rfl, ((cursor_within_source sampleReserved "ab  12".toList).2 2 _ rfl).2.2.1⟩

/-- C11: whitespace and line comments produce no tokens: for every run `w` of
whitespace characters (space, tab, newline, carriage return, form feed; it may
be empty), every comment text `c` without a newline and every source `s`,
`Tokenize(w ++ "//" ++ c ++ "\n" ++ s)` has the outcome of `Tokenize(s)`: the
same token sequence, or the same panic with the same reported remainder. -/
theorem Tokenize_skips_whitespace_and_comment (reservedWords : List Char → Option TokenKind)
    (w c s : List Char)
    (hw : ∀ x ∈ w, x = ' ' ∨ x = '\t' ∨ x = '\n' ∨ x = '\r' ∨ x = '\x0c')
    (hc : '\n' ∉ c) :
    Tokenize reservedWords (w ++ "//".toList ++ c ++ "\n".toList ++ s)
      = Tokenize reservedWords s := by
  have hw' : ∀ x ∈ w, space x = true := by
    intro x hx
    rcases hw x hx with rfl | rfl | rfl | rfl | rfl <;> decide
  have hc' : ∀ x ∈ c, anyNotNL x = true := by
    intro x hx
    simp only [anyNotNL, bne_iff_ne, ne_eq]
    rintro rfl
    exact hc hx
  have e0 : w ++ "//".toList ++ c ++ "\n".toList ++ s = w ++ '/' :: '/' :: (c ++ '\n' :: s) := by
    simp
  rw [e0, Tokenize_skip_space,
    dropWhile_run space w _ hw' (by
      intro x hx
      simp only [List.head?_cons, Option.some.injEq] at hx
      subst hx
      decide),
    Tokenize_skip_comment,
    dropWhile_run anyNotNL c _ hc' (by
      intro x hx
      simp only [List.head?_cons, Option.some.injEq] at hx
      subst hx
      decide),
    Tokenize_skip_space reservedWords ('\n' :: s), Tokenize_skip_space reservedWords s]
  simp [List.dropWhile, space]

theorem Tokenize_skips_whitespace_and_comment_witness :
    Tokenize sampleReserved "   // comment\n42".toList
      = .returned [NewToken .NUMBER "42".toList, NewToken .EOF "EOF".toList] ∧
    Tokenize sampleReserved "   // comment\n42".toList = Tokenize sampleReserved "42".toList :=
  ⟨by decide,
    Tokenize_skips_whitespace_and_comment sampleReserved "   ".toList " comment".toList
      "42".toList (by decide) (by decide)⟩

/-- C15: a leading minus sign is never part of a number: for every non-empty
run `d` of ASCII digits, `Tokenize("-" ++ d)` returns exactly
`[Token(DASH, "-"), Token(NUMBER, d), Token(EOF, "EOF")]`, and so it is for the
literal `d ++ "." ++ f` with a non-empty run `f` of ASCII digits after a dot. -/
theorem Tokenize_minus_number (reservedWords : List Char → Option TokenKind)
    (d f : List Char) (hd : d ≠ []) (hdd : ∀ c ∈ d, asciiDigit c)
    (hff : ∀ c ∈ f, asciiDigit c) :
    Tokenize reservedWords ("-".toList ++ d)
      = .returned [NewToken .DASH "-".toList, NewToken .NUMBER d,
          NewToken .EOF "EOF".toList] ∧
    (f ≠ [] →
      Tokenize reservedWords ("-".toList ++ (d ++ ".".toList ++ f))
        = .returned [NewToken .DASH "-".toList, NewToken .NUMBER (d ++ ".".toList ++ f),
            NewToken .EOF "EOF".toList]) := by
  have hdd' : ∀ c ∈ d, digit c = true := fun c hc => digit_of_ascii c (hdd c hc)
  have hff' : ∀ c ∈ f, digit c = true := fun c hc => digit_of_ascii c (hff c hc)
  obtain ⟨c0, d', rfl⟩ := List.exists_cons_of_ne_nil hd
  have hc0 : digit c0 = true := hdd' c0 (List.mem_cons_self _ _)
  have key : ∀ t : List Char, numberRe.matchLen (c0 :: t) = some (c0 :: t).length →
      Tokenize reservedWords ('-' :: c0 :: t)
        = .returned [NewToken .DASH "-".toList, NewToken .NUMBER (c0 :: t),
            NewToken .EOF "EOF".toList] := by
    intro t hm
    rw [Tokenize_of_some reservedWords _ (by simp) _ _ (firstMatch_dash reservedWords c0 t hc0),
      emitted_default]
    simp only [List.drop_succ_cons, List.drop_zero]
    rw [Tokenize_number_whole reservedWords c0 t hc0 hm]
    rfl
  constructor
  · have := number_matchLen_int (c0 :: d') [] hd hdd' (head?_nil_imp _)
      (by intro r' hr'; simp at hr')
    rw [List.append_nil] at this
    exact key d' this
  · intro hf
    have := number_matchLen_frac (c0 :: d') f [] hd hdd' hf hff' (head?_nil_imp _)
    simp only [List.append_nil] at this
    have e1 : "-".toList ++ (c0 :: d' ++ ".".toList ++ f) = '-' :: c0 :: (d' ++ '.' :: f) := by
      simp
    have e2 : c0 :: d' ++ ".".toList ++ f = c0 :: (d' ++ '.' :: f) := by simp
    rw [e1, e2]
    apply key
    rw [List.cons_append] at this
    rw [this]
    simp
    omega

theorem Tokenize_minus_number_witness :
    Tokenize sampleReserved "-12".toList
      = .returned [NewToken .DASH "-".toList, NewToken .NUMBER "12".toList,
          NewToken .EOF "EOF".toList] ∧
    Tokenize sampleReserved "-12.5".toList
      = .returned [NewToken .DASH "-".toList, NewToken .NUMBER "12.5".toList,
          NewToken .EOF "EOF".toList] :=
  ⟨(Tokenize_minus_number sampleReserved "12".toList "5".toList (by decide) (by decide)
      (by decide)).1,
    (Tokenize_minus_number sampleReserved "12".toList "5".toList (by decide) (by decide)
      (by decide)).2 (by decide)⟩

/-- C14: on every source on which `Tokenize` returns, the values `v1..vn` of
the returned tokens other than the final `EOF` token are substrings of the
source in output order, at disjoint increasing positions: there are texts
`g0..gn` with `source = g0 ++ v1 ++ g1 ++ ... ++ vn ++ gn`, each `gi` made only
of texts the skip handler consumed (whitespace runs and line comments). -/
theorem token_values_in_source_order (reservedWords : List Char → Option TokenKind)
    (source : List Char) (tokens : List Token)
    (h : Tokenize reservedWords source = .returned tokens) :
    ∃ gaps : List (List Char),
      gaps.length = tokens.dropLast.length + 1 ∧ (∀ g ∈ gaps, gapText g) ∧
      source = weave gaps tokens.dropLast := by
  refine Tokenize_induction reservedWords
    (fun s ts => ∃ gaps : List (List Char),
      gaps.length = ts.dropLast.length + 1 ∧ (∀ g ∈ gaps, gapText g) ∧
      s = weave gaps ts.dropLast) ?_ ?_ source tokens h
  · refine ⟨[[]], rfl, ?_, rfl⟩
    intro g hg
    simp only [List.mem_singleton] at hg
    subst hg
    exact ⟨[], rfl, by simp⟩
  · intro s p e ts hs hf hts ih
    obtain ⟨gaps, hlen, hgaps, hweave⟩ := ih
    have hlast := Tokenize_returned_ne_nil reservedWords _ _ hts
    rw [dropLast_append_ne_nil _ _ hlast]
    have hsplit : s = s.take e ++ s.drop e := (List.take_append_drop e s).symm
    rcases step_cases reservedWords s p e hf with ⟨hem, hskip⟩ | ⟨k, hem, -⟩
    · cases gaps with
      | nil => simp at hlen
      | cons g0 gs =>
        refine ⟨(s.take e ++ g0) :: gs, ?_, ?_, ?_⟩
        · simpa [hem] using hlen
        · intro g hg
          rcases List.mem_cons.mp hg with rfl | hg'
          · obtain ⟨pieces, rfl, hp⟩ := hgaps g0 (List.mem_cons_self _ _)
            refine ⟨s.take e :: pieces, by simp, ?_⟩
            intro x hx
            rcases List.mem_cons.mp hx with rfl | hx'
            · exact hskip
            · exact hp x hx'
          · exact hgaps g (List.mem_cons_of_mem _ hg')
        · rw [hem, List.nil_append, weave_cons_append, ← hweave]
          exact hsplit
    · refine ⟨[] :: gaps, ?_, ?_, ?_⟩
      · simp [hem, hlen]
      · intro g hg
        rcases List.mem_cons.mp hg with rfl | hg'
        · exact ⟨[], rfl, by simp⟩
        · exact hgaps g hg'
      · rw [hem]
        show s = [] ++ (NewToken k (s.take e)).value ++ weave gaps ts.dropLast
        rw [← hweave]
        exact hsplit

theorem token_values_in_source_order_witness :
    Tokenize sampleReserved "a = 1 // c".toList
      = .returned [⟨.IDENTIFIER, "a".toList⟩, ⟨.ASSIGNMENT, "=".toList⟩,
          ⟨.NUMBER, "1".toList⟩, ⟨.EOF, "EOF".toList⟩] ∧
    "a = 1 // c".toList
      = weave ["".toList, " ".toList, " ".toList, " // c".toList]
          [⟨.IDENTIFIER, "a".toList⟩, ⟨.ASSIGNMENT, "=".toList⟩, ⟨.NUMBER, "1".toList⟩] ∧
    ∃ gaps : List (List Char),
      gaps.length
        = ([⟨.IDENTIFIER, "a".toList⟩, ⟨.ASSIGNMENT, "=".toList⟩, ⟨.NUMBER, "1".toList⟩,
            ⟨.EOF, "EOF".toList⟩] : List Token).dropLast.length + 1 ∧
      (∀ g ∈ gaps, gapText g) ∧
      "a = 1 // c".toList
        = weave gaps ([⟨.IDENTIFIER, "a".toList⟩, ⟨.ASSIGNMENT, "=".toList⟩,
            ⟨.NUMBER, "1".toList⟩, ⟨.EOF, "EOF".toList⟩] : List Token).dropLast :=
  ⟨by decide, by decide,
    token_values_in_source_order sampleReserved "a = 1 // c".toList _ (by decide)⟩

/-- C19: every emitted token re-lexes to itself: on every source on which
`Tokenize` returns, for every token `t` of the result other than the final
`EOF` token, `Tokenize(t.value)` returns exactly `[t, Token(EOF, "EOF")]`. -/
theorem tokens_relex_to_themselves (reservedWords : List Char → Option TokenKind)
    (source : List Char) (tokens : List Token)
    (h : Tokenize reservedWords source = .returned tokens) :
    ∀ t ∈ tokens.dropLast,
      Tokenize reservedWords t.value = .returned [t, NewToken .EOF "EOF".toList] := by
  refine Tokenize_induction reservedWords
    (fun _ ts => ∀ t ∈ ts.dropLast,
      Tokenize reservedWords t.value = .returned [t, NewToken .EOF "EOF".toList]) ?_ ?_
    source tokens h
  · intro t ht
    simp at ht
  · intro s p e ts hs hf hts ih t ht
    have hlast := Tokenize_returned_ne_nil reservedWords _ _ hts
    rw [dropLast_append_ne_nil _ _ hlast] at ht
    rcases step_cases reservedWords s p e hf with ⟨hem, -⟩ | ⟨k, hem, hrelex⟩
    · rw [hem, List.nil_append] at ht
      exact ih t ht
    · rw [hem] at ht
      rcases List.mem_append.mp ht with h1 | h2
      · simp only [List.mem_singleton] at h1
        subst h1
        exact hrelex
      · exact ih t h2

theorem tokens_relex_to_themselves_witness :
    Tokenize sampleReserved "let s = \"a b\" // c".toList
      = .returned [⟨.RESERVED 0, "let".toList⟩, ⟨.IDENTIFIER, "s".toList⟩,
          ⟨.ASSIGNMENT, "=".toList⟩, ⟨.STRING, "\"a b\"".toList⟩, ⟨.EOF, "EOF".toList⟩] ∧
    Tokenize sampleReserved "\"a b\"".toList
      = .returned [⟨.STRING, "\"a b\"".toList⟩, NewToken .EOF "EOF".toList] :=
  ⟨by decide,
    tokens_relex_to_themselves sampleReserved "let s = \"a b\" // c".toList
      [⟨.RESERVED 0, "let".toList⟩, ⟨.IDENTIFIER, "s".toList⟩,
        ⟨.ASSIGNMENT, "=".toList⟩, ⟨.STRING, "\"a b\"".toList⟩, ⟨.EOF, "EOF".toList⟩]
      (by decide) ⟨.STRING, "\"a b\"".toList⟩ (by decide)⟩

/-- C18: for this table, first-match-by-priority dispatch is longest-match
dispatch.  At every text `s` (the remainder at any cursor of any source), if
entry `i` of the table is the first whose leftmost match starts at offset 0,
with a match of length `e`, then every other entry whose leftmost match starts
at offset 0 matches strictly less text; and the inner loop of `Tokenize` runs
the handler of the pattern that `longestMatch` selects. -/
theorem first_match_is_longest_match (reservedWords : List Char → Option TokenKind)
    (s : List Char) :
    (∀ (i j : Nat) (p q : regexPattern) (e e' : Nat),
      (patterns reservedWords)[i]? = some p → (patterns reservedWords)[j]? = some q →
      i ≠ j → FindStringIndex p.regex s = some (0, e) →
      (∀ k r, k < i → (patterns reservedWords)[k]? = some r →
        ∀ x, FindStringIndex r.regex s ≠ some (0, x)) →
      FindStringIndex q.regex s = some (0, e') → e' < e) ∧
    (∀ lex : Lexer, lex.remainder = s →
      dispatch lex (patterns reservedWords)
        = (longestMatch s (patterns reservedWords)).map
            (fun pe => pe.1.handler lex pe.1.regex)) := by
  have hpw := patterns_pairwise reservedWords
  constructor
  · intro i j p q e e' hp hq hij hpm hfirst hqm
    rcases Nat.lt_or_gt_of_ne hij with hlt | hgt
    · obtain ⟨hi, hpi⟩ := List.getElem?_eq_some_iff.mp hp
      obtain ⟨hj, hqj⟩ := List.getElem?_eq_some_iff.mp hq
      have hb := (List.pairwise_iff_getElem.mp hpw) i j hi hj hlt
      rw [hpi, hqj] at hb
      exact hb s e e' ((FindStringIndex_zero _ _ _).mp hpm) ((FindStringIndex_zero _ _ _).mp hqm)
    · exact absurd hqm (hfirst j q hgt hq e')
  · intro lex hlex
    rw [dispatch_eq_firstMatch, hlex, firstMatch_eq_longestMatch s _ hpw]

theorem first_match_is_longest_match_witness :
    longestMatch "==x".toList (patterns sampleReserved)
      = some (⟨.lit "==".toList, defaultHandler .EQUALS "==".toList⟩, 2) ∧
    dispatch (CreateLexer "==x".toList) (patterns sampleReserved)
      = (longestMatch "==x".toList (patterns sampleReserved)).map
          (fun pe => pe.1.handler (CreateLexer "==x".toList) pe.1.regex) :=
  ⟨rfl, (first_match_is_longest_match sampleReserved "==x".toList).2
    (CreateLexer "==x".toList) rfl⟩

/-- C20: tokenization composes across a newline: for all source texts `a` and
`b` on which `Tokenize` returns, `Tokenize(a ++ "\n" ++ b)` returns the tokens
of `Tokenize(a)` without its final `EOF` token, followed by those of
`Tokenize(b)`. -/
theorem Tokenize_composes_across_newline (reservedWords : List Char → Option TokenKind)
    (a b : List Char) (ta tb : List Token)
    (ha : Tokenize reservedWords a = .returned ta)
    (hb : Tokenize reservedWords b = .returned tb) :
    Tokenize reservedWords (a ++ "\n".toList ++ b) = .returned (ta.dropLast ++ tb) := by
  have hnl : a ++ "\n".toList ++ b = a ++ '\n' :: b := by simp
  rw [hnl]
  refine Tokenize_induction reservedWords
    (fun s ts => Tokenize reservedWords (s ++ '\n' :: b) = .returned (ts.dropLast ++ tb))
    ?_ ?_ a ta ha
  · show Tokenize reservedWords ('\n' :: b) = .returned tb
    rw [Tokenize_skip_space, ← hb, Tokenize_skip_space reservedWords b]
    simp [List.dropWhile, space]
  · intro s p e ts hs hf hts ih
    simp only at ih ⊢
    have hlast := Tokenize_returned_ne_nil reservedWords _ _ hts
    rw [dropLast_append_ne_nil _ _ hlast, List.append_assoc]
    obtain ⟨hpos, hle, -, -⟩ := firstMatch_pos reservedWords s p e hf
    cases s with
    | nil => exact absurd rfl hs
    | cons c t =>
      by_cases h1 : identStart c = true
      · have hf' := firstMatch_ident reservedWords c (t ++ '\n' :: b) h1
        rw [takeWhile_append_stop identChar t b '\n' (by decide)] at hf'
        rw [firstMatch_ident reservedWords c t h1] at hf
        simp only [Option.some.injEq, Prod.mk.injEq] at hf
        obtain ⟨rfl, rfl⟩ := hf
        refine extend_step reservedWords _ _ _ _ _ hle hf' ?_ ih
        have hm' := ident_closed c (t ++ '\n' :: b) h1
        rw [takeWhile_append_stop identChar t b '\n' (by decide)] at hm'
        rw [emitted_symbol reservedWords _ _ _ (ident_closed c t h1)]
        rw [← List.cons_append] at hm'
        rw [emitted_symbol reservedWords _ _ _ hm', take_append_le _ _ _ hle]
      by_cases h2 : digit c = true
      · have hf' := firstMatch_number reservedWords c (t ++ '\n' :: b) h2
        rw [← List.cons_append, numberLen_extend] at hf'
        rw [firstMatch_number reservedWords c t h2] at hf
        simp only [Option.some.injEq, Prod.mk.injEq] at hf
        obtain ⟨rfl, rfl⟩ := hf
        refine extend_step reservedWords _ _ _ _ _ hle hf' ?_ ih
        have hm' := number_closed c (t ++ '\n' :: b) h2
        rw [← List.cons_append, numberLen_extend] at hm'
        rw [emitted_number _ _ _ (number_closed c t h2), emitted_number _ _ _ hm',
          take_append_le _ _ _ hle]
      by_cases h3 : c = '"'
      · subst h3
        by_cases hq : '"' ∈ t
        · have hq' : '"' ∈ t ++ '\n' :: b := List.mem_append_left _ hq
          have htw : (t ++ '\n' :: b).takeWhile notQuote = t.takeWhile notQuote :=
            takeWhile_append_of_mem notQuote t _ ⟨'"', hq, by decide⟩
          have hf' := firstMatch_string reservedWords (t ++ '\n' :: b) hq'
          rw [htw] at hf'
          rw [firstMatch_string reservedWords t hq] at hf
          simp only [Option.some.injEq, Prod.mk.injEq] at hf
          obtain ⟨rfl, rfl⟩ := hf
          refine extend_step reservedWords _ _ _ _ _ hle hf' ?_ ih
          have hm' := string_closed (t ++ '\n' :: b) hq'
          rw [htw, ← List.cons_append] at hm'
          rw [emitted_string _ _ _ (string_closed t hq), emitted_string _ _ _ hm',
            take_append_le _ _ _ hle]
        · rw [firstMatch_quote_none reservedWords t hq] at hf
          simp at hf
      by_cases h5 : space c = true
      · rw [firstMatch_space reservedWords c t h5] at hf
        simp only [Option.some.injEq, Prod.mk.injEq] at hf
        obtain ⟨rfl, rfl⟩ := hf
        rw [emitted_skip _ _ _ (space_closed c t h5), List.nil_append]
        have hdrop : (c :: t).drop ((t.takeWhile space).length + 1) = (c :: t).dropWhile space := by
          simp [List.dropWhile, h5, drop_length_takeWhile]
        rw [hdrop] at ih
        rw [Tokenize_skip_space, dropWhile_append_dropWhile, ← Tokenize_skip_space]
        exact ih
      by_cases h4 : List.isPrefixOf ['/', '/'] (c :: t) = true
      · have : ∃ t', c :: t = '/' :: '/' :: t' := by
          obtain ⟨t', ht'⟩ := List.isPrefixOf_iff_prefix.mp h4
          exact ⟨t', ht'.symm⟩
        obtain ⟨t', ht'⟩ := this
        rw [ht'] at hf hle ih ⊢
        have hf' := firstMatch_comment reservedWords (t' ++ '\n' :: b)
        rw [takeWhile_append_stop anyNotNL t' b '\n' (by decide)] at hf'
        rw [firstMatch_comment reservedWords t'] at hf
        simp only [Option.some.injEq, Prod.mk.injEq] at hf
        obtain ⟨rfl, rfl⟩ := hf
        refine extend_step reservedWords _ _ _ _ _ hle hf' ?_ ih
        have hm' := comment_closed (t' ++ '\n' :: b)
        rw [takeWhile_append_stop anyNotNL t' b '\n' (by decide)] at hm'
        rw [emitted_skip _ _ _ (comment_closed t')]
        exact emitted_skip _ _ _ hm'
      · have h3' : (('"' : Char) == c) = false := by
          simp only [beq_eq_false_iff_ne, ne_eq]
          exact fun h => h3 h.symm
        have h4' : List.isPrefixOf ['/', '/'] (c :: t) = false := by
          cases h : List.isPrefixOf ['/', '/'] (c :: t) with
          | false => rfl
          | true => exact absurd h h4
        have h4e : List.isPrefixOf ['/', '/'] (c :: (t ++ '\n' :: b)) = false := by
          have := lit_extend ['/', '/'] (c :: t) b (by decide)
          rw [lit_closed, lit_closed, h4'] at this
          cases h : List.isPrefixOf ['/', '/'] (c :: (t ++ '\n' :: b)) with
          | false => rfl
          | true =>
            rw [List.cons_append, h] at this
            simp at this
        have hsym := firstMatch_symbol reservedWords c t (by simpa using h1)
          (by simpa using h2) h3' h4' (by simpa using h5)
        have hsym' := firstMatch_symbol reservedWords c (t ++ '\n' :: b) (by simpa using h1)
          (by simpa using h2) h3' h4e (by simpa using h5)
        have hcongr := firstMatch_congr (c :: t ++ '\n' :: b) (c :: t)
          (fixedSymbols.map (fun kv => ⟨.lit kv.2, defaultHandler kv.1 kv.2⟩))
          (by
            intro q hq
            simp only [List.mem_map] at hq
            obtain ⟨kv, hkv, rfl⟩ := hq
            exact lit_extend kv.2 (c :: t) b (fixed_no_newline kv hkv))
        rw [hsym] at hf
        have hf' : firstMatch (c :: t ++ '\n' :: b) (patterns reservedWords) = some (p, e) := by
          rw [List.cons_append, hsym', ← List.cons_append, hcongr, hf]
        refine extend_step reservedWords _ _ _ _ _ hle hf' ?_ ih
        obtain ⟨hmem, -⟩ := firstMatch_mem _ _ _ _ hf
        simp only [List.mem_map] at hmem
        obtain ⟨kv, hkv, rfl⟩ := hmem
        rw [emitted_default, emitted_default]

theorem Tokenize_composes_across_newline_witness :
    Tokenize sampleReserved "x = 1 ".toList
      = .returned [⟨.IDENTIFIER, "x".toList⟩, ⟨.ASSIGNMENT, "=".toList⟩,
          ⟨.NUMBER, "1".toList⟩, ⟨.EOF, "EOF".toList⟩] ∧
    Tokenize sampleReserved " let y".toList
      = .returned [⟨.RESERVED 0, "let".toList⟩, ⟨.IDENTIFIER, "y".toList⟩,
          ⟨.EOF, "EOF".toList⟩] ∧
    Tokenize sampleReserved "x = 1 \n let y".toList
      = .returned [⟨.IDENTIFIER, "x".toList⟩, ⟨.ASSIGNMENT, "=".toList⟩,
          ⟨.NUMBER, "1".toList⟩, ⟨.RESERVED 0, "let".toList⟩, ⟨.IDENTIFIER, "y".toList⟩,
          ⟨.EOF, "EOF".toList⟩] :=
  ⟨by decide, by decide,
    Tokenize_composes_across_newline sampleReserved "x = 1 ".toList " let y".toList
      [⟨.IDENTIFIER, "x".toList⟩, ⟨.ASSIGNMENT, "=".toList⟩, ⟨.NUMBER, "1".toList⟩,
        ⟨.EOF, "EOF".toList⟩]
      [⟨.RESERVED 0, "let".toList⟩, ⟨.IDENTIFIER, "y".toList⟩, ⟨.EOF, "EOF".toList⟩]
      (by decide) (by decide)⟩

end Lexer
